import Mathlib

/-!
# Consistent hashing ring (`GO/consistence_hashing/consistence_hashing.go`)

A shallow embedding of the Go package `consistence_hashing` and of the driver
`GO/main.go`.

* `map[int]string` and `map[string][]string` are association lists read with
  first-match lookup; assignment drops the old binding, `delete` drops every
  binding of the key.
* A Go slice is a header `(ptr, len, cap)` over a backing array kept in an explicit
  store, because the package stores the same backing array under two servers and
  `append` writes in place whenever the capacity allows it.
* `crypto/md5` and the capacity chosen by `append` when it has to reallocate are not
  part of the package: they are the two fields of `Runtime`.
* A run-time panic (index out of range) is the result `none`.
-/

namespace ConsistenceHashing

/-! ## Maps -/

/-- Map lookup `m[k]` with the "comma ok" result: the first binding of `k`. -/
def mapGet? {κ ν : Type} [DecidableEq κ] : List (κ × ν) → κ → Option ν
  | [], _ => none
  | (k', v) :: m, k => if k' = k then some v else mapGet? m k

/-- Map deletion `delete(m, k)`. -/
def mapDelete {κ ν : Type} [DecidableEq κ] (m : List (κ × ν)) (k : κ) : List (κ × ν) :=
  m.filter (fun e => decide (e.1 ≠ k))

/-- Map assignment `m[k] = v`. -/
def mapSet {κ ν : Type} [DecidableEq κ] (m : List (κ × ν)) (k : κ) (v : ν) : List (κ × ν) :=
  (k, v) :: mapDelete m k

/-! ## Slices of strings -/

/-- Slice header: backing array, length, capacity. -/
structure Slice where
  ptr : Nat
  len : Nat
  cap : Nat
deriving DecidableEq, Repr

/-- The nil slice and the literal `[]string{}`: no capacity, so the pointer is never used. -/
def Slice.empty : Slice := ⟨0, 0, 0⟩

/-- What the program is linked with: `md5.Sum` and the capacity `append` asks for
when a slice of capacity `c` is full (the result is at least `len + 1` in any case). -/
structure Runtime where
  md5Sum : String → Fin 16 → Fin 256
  growCap : Nat → Nat

/-- The backing array `ptr` of the store. -/
def arrayAt (heap : List (List String)) (ptr : Nat) : List String :=
  heap.getD ptr []

/-- The elements `s[0], ..., s[len-1]` a slice shows. -/
def elems (heap : List (List String)) (s : Slice) : List String :=
  (arrayAt heap s.ptr).take s.len

/-- The element at place `i` of the backing array of `s`: what a `range` loop over `s`
reads at its iteration `i < len(s)`. -/
def index (heap : List (List String)) (s : Slice) (i : Nat) : String :=
  (arrayAt heap s.ptr).getD i ""

/-- The indexing expression `s[i]`: a run-time panic (index out of range) unless
`i < len(s)`. -/
def index? (heap : List (List String)) (s : Slice) (i : Nat) : Option String :=
  if i < s.len then some (index heap s i) else none

/-- The call `append(s, x)`: with spare capacity the element is written into the shared
backing array, otherwise the elements are copied to a new array. -/
def appendOne (rt : Runtime) (heap : List (List String)) (s : Slice) (x : String) :
    List (List String) × Slice :=
  if s.len < s.cap then
    (heap.set s.ptr ((arrayAt heap s.ptr).set s.len x), { s with len := s.len + 1 })
  else
    let newCap := max (s.len + 1) (rt.growCap s.cap)
    (heap ++ [elems heap s ++ [x] ++ List.replicate (newCap - (s.len + 1)) ""],
      ⟨heap.length, s.len + 1, newCap⟩)

/-- The call `append(s[:i], s[i+1:]...)` for `i < len(s)`: the result has `len(s) - 1`
elements, which always fit, so the elements after `i` are moved one place down inside
the backing array and the last place keeps its old content. -/
def deleteAt (heap : List (List String)) (s : Slice) (i : Nat) : List (List String) × Slice :=
  let a := arrayAt heap s.ptr
  (heap.set s.ptr (a.take i ++ (a.drop (i + 1)).take (s.len - i - 1) ++ a.drop (s.len - 1)),
    { s with len := s.len - 1 })

/-- The call `append(s[:i], s[i+1:]...)` with the bounds checks of its two slice
expressions: a run-time panic (slice bounds out of range) unless `i + 1 <= len(s)`. -/
def deleteAt? (heap : List (List String)) (s : Slice) (i : Nat) :
    Option (List (List String) × Slice) :=
  if i + 1 ≤ s.len then some (deleteAt heap s i) else none

/-! ## The package -/

/-- The struct `ConsistentHashing`, together with the store of backing arrays its
slices point into. -/
structure ConsistentHashing where
  hashRing : List (Int × String)
  serverToKeys : List (String × Slice)
  virtualNodes : Int
  heap : List (List String)
deriving DecidableEq, Repr

/-- The constructor `NewConsistentHashing`. -/
def NewConsistentHashing (virtualNodes : Int) : ConsistentHashing :=
  { hashRing := [], serverToKeys := [], virtualNodes := virtualNodes, heap := [] }

/-- The return expression of `hash` (line 26) on a digest: `hash[0]<<4` is a shift of a
`uint8`, so it is taken modulo 256; the other three bytes are widened to `int` first. -/
def packDigest (hash : Fin 16 → Fin 256) : Int :=
  Int.ofNat ((((hash 0).val <<< 4) % 256) ||| ((hash 1).val <<< 16) |||
    ((hash 2).val <<< 8) ||| (hash 3).val)

/-- The method `hash`. -/
def hash (rt : Runtime) (key : String) : Int :=
  packDigest (rt.md5Sum key)

/-- The name `fmt.Sprintf("%s_VN_%d", server, i)`. -/
def virtualNodeName (server : String) (i : Nat) : String :=
  server ++ "_VN_" ++ toString i

/-- The keys of the ring after `sort.Ints`. -/
def sortedKeys (hashRing : List (Int × String)) : List Int :=
  (hashRing.map Prod.fst).insertionSort (fun a b => a ≤ b)

/-- The expression `ch.hashRing[h]`: the empty string when `h` is not a key. -/
def ringAt (hashRing : List (Int × String)) (h : Int) : String :=
  (mapGet? hashRing h).getD ""

/-- The expression `ch.serverToKeys[server]`: the nil slice when `server` is not a key. -/
def keysSlice (ch : ConsistentHashing) (server : String) : Slice :=
  (mapGet? ch.serverToKeys server).getD Slice.empty

/-- The statement `ch.serverToKeys[server] = append(ch.serverToKeys[server], key)`. -/
def appendKey (rt : Runtime) (ch : ConsistentHashing) (server key : String) :
    ConsistentHashing :=
  let r := appendOne rt ch.heap (keysSlice ch server) key
  { ch with serverToKeys := mapSet ch.serverToKeys server r.2, heap := r.1 }

/-- The method `GetServer`. -/
def GetServer (rt : Runtime) (ch : ConsistentHashing) (key : String) : Option String :=
  let hash := hash rt key
  let keys := sortedKeys ch.hashRing
  match keys.find? (fun h => decide (h ≥ hash)) with
  | some h => some (ringAt ch.hashRing h)
  | none =>
    match keys.head? with
    | some h0 => some (ringAt ch.hashRing h0)
    | none => none

/-- The method `AssignKey`. -/
def AssignKey (rt : Runtime) (ch : ConsistentHashing) (key : String) :
    Option ConsistentHashing :=
  match GetServer rt ch key with
  | some server => some (appendKey rt ch server key)
  | none => none

/-- Lines 58-68 of `reassignKeysAfterServerAddition`: the first sorted key above the
virtual node, `0` standing for "none found", replaced by `keys[0]`. -/
def nextServerHashOf (keys : List Int) (virtualNodeHash : Int) : Option Int :=
  let nextServerHash : Int :=
    match keys.find? (fun h => decide (h > virtualNodeHash)) with
    | some h => h
    | none => 0
  if nextServerHash = 0 then keys.head? else some nextServerHash

/-- The inner loop (lines 77-87) from index `i` on. The first argument bounds the number
of iterations; `len(nextServerKeys) - i` of them are enough. -/
def reassignLoop (rt : Runtime) (newServer : String) (virtualNodeHash nextServerHash : Int) :
    Nat → Nat → ConsistentHashing → Slice → Option (ConsistentHashing × Slice)
  | 0, _, ch, nextServerKeys => some (ch, nextServerKeys)
  | fuel + 1, i, ch, nextServerKeys =>
    if i < nextServerKeys.len then
      match index? ch.heap nextServerKeys i with
      | none => none
      | some key =>
        let keyHash := hash rt key
        if keyHash ≤ virtualNodeHash ∨
            (nextServerHash ≠ 0 ∧ virtualNodeHash < nextServerHash) then
          let ch1 := appendKey rt ch newServer key
          match deleteAt? ch1.heap nextServerKeys i with
          | none => none
          | some r =>
            reassignLoop rt newServer virtualNodeHash nextServerHash fuel (i + 1)
              { ch1 with heap := r.1 } r.2
        else
          reassignLoop rt newServer virtualNodeHash nextServerHash fuel (i + 1) ch
            nextServerKeys
    else some (ch, nextServerKeys)

/-- One iteration of the outer loop of `reassignKeysAfterServerAddition` (lines 48-89). -/
def reassignVirtualNode (rt : Runtime) (newServer : String) (ch : ConsistentHashing)
    (i : Nat) : Option ConsistentHashing :=
  let virtualNodeHash := hash rt (virtualNodeName newServer i)
  let keys := sortedKeys ch.hashRing
  match nextServerHashOf keys virtualNodeHash with
  | none => none
  | some nextServerHash =>
    let nextServer := ringAt ch.hashRing nextServerHash
    if nextServer ≠ newServer then
      let nextServerKeys := keysSlice ch nextServer
      match reassignLoop rt newServer virtualNodeHash nextServerHash nextServerKeys.len 0
          ch nextServerKeys with
      | none => none
      | some r => some { r.1 with serverToKeys := mapSet r.1.serverToKeys newServer r.2 }
    else some ch

/-- The method `reassignKeysAfterServerAddition`. -/
def reassignKeysAfterServerAddition (rt : Runtime) (ch : ConsistentHashing)
    (newServer : String) : Option ConsistentHashing :=
  (List.range ch.virtualNodes.toNat).foldlM (reassignVirtualNode rt newServer) ch

/-- The ring after the first loop of `AddServer` (lines 32-37). -/
def insertVirtualNodes (rt : Runtime) (hashRing : List (Int × String)) (server : String)
    (n : Nat) : List (Int × String) :=
  (List.range n).foldl (fun r i => mapSet r (hash rt (virtualNodeName server i)) server) hashRing

/-- The method `AddServer`. -/
def AddServer (rt : Runtime) (ch : ConsistentHashing) (server : String) :
    Option ConsistentHashing :=
  reassignKeysAfterServerAddition rt
    { ch with
      serverToKeys := mapSet ch.serverToKeys server Slice.empty
      hashRing := insertVirtualNodes rt ch.hashRing server ch.virtualNodes.toNat }
    server

/-- One iteration of the loop of `reassignKeysAfterServerRemoval` (lines 119-123): the
key is read from the backing array when its turn comes. -/
def reassignRemovedKey (rt : Runtime) (keysToReassign : Slice) (ch : ConsistentHashing)
    (idx : Nat) : Option ConsistentHashing :=
  let key := index ch.heap keysToReassign idx
  match GetServer rt ch key with
  | some newServer => some (appendKey rt ch newServer key)
  | none => none

/-- The method `reassignKeysAfterServerRemoval`. -/
def reassignKeysAfterServerRemoval (rt : Runtime) (ch : ConsistentHashing)
    (server : String) : Option ConsistentHashing :=
  let keysToReassign := keysSlice ch server
  if keysToReassign.len = 0 then some ch
  else
    (List.range keysToReassign.len).foldlM (reassignRemovedKey rt keysToReassign)
      { ch with hashRing := mapDelete ch.hashRing (hash rt server) }

/-- The ring after the first loop of `RemoveServer` (lines 96-101). -/
def deleteVirtualNodes (rt : Runtime) (hashRing : List (Int × String)) (server : String)
    (n : Nat) : List (Int × String) :=
  (List.range n).foldl (fun r i => mapDelete r (hash rt (virtualNodeName server i))) hashRing

/-- The method `RemoveServer`. -/
def RemoveServer (rt : Runtime) (ch : ConsistentHashing) (server : String) :
    Option ConsistentHashing :=
  reassignKeysAfterServerRemoval rt
    { ch with hashRing := deleteVirtualNodes rt ch.hashRing server ch.virtualNodes.toNat }
    server

/-- The key sequence recorded for a server, as `DisplayServerKeys` prints it. -/
def keysOf (ch : ConsistentHashing) (server : String) : List String :=
  elems ch.heap (keysSlice ch server)

/-- All recorded keys: the sequences of all servers of `serverToKeys`, one after another. -/
def recordedKeys (ch : ConsistentHashing) : List String :=
  (ch.serverToKeys.map (fun e => elems ch.heap e.2)).flatten

/-- The states the package can be in: built by `NewConsistentHashing` and changed by
calls of the three exported mutators that return. -/
inductive Reachable (rt : Runtime) : ConsistentHashing → Prop
  | init (virtualNodes : Int) : Reachable rt (NewConsistentHashing virtualNodes)
  | addServer {ch ch1 : ConsistentHashing} (server : String) :
      Reachable rt ch → AddServer rt ch server = some ch1 → Reachable rt ch1
  | assignKey {ch ch1 : ConsistentHashing} (key : String) :
      Reachable rt ch → AssignKey rt ch key = some ch1 → Reachable rt ch1
  | removeServer {ch ch1 : ConsistentHashing} (server : String) :
      Reachable rt ch → RemoveServer rt ch server = some ch1 → Reachable rt ch1

/-! ## The driver `main.go` -/

/-- The MD5 digests of the names the driver and the scenarios below hash. -/
def digestTable : List (String × List Nat) := [
  ("Server1", [0x00, 0x5b, 0xf6, 0xff, 0x2a, 0x4d, 0x1d, 0xfe, 0xdd, 0x7c, 0x3d, 0xc0, 0x0a, 0xa3, 0x6b, 0xba]),
  ("Server1_VN_0", [0x30, 0x35, 0xcb, 0x47, 0x6c, 0xcc, 0x39, 0x1a, 0xc4, 0x22, 0x94, 0x25, 0x81, 0x90, 0x02, 0x57]),
  ("Server1_VN_1", [0x92, 0x2b, 0xd7, 0xbe, 0xa6, 0x67, 0x49, 0xbb, 0x7b, 0xe5, 0xc2, 0x7f, 0x96, 0x20, 0x1b, 0x91]),
  ("Server1_VN_2", [0x03, 0x56, 0x79, 0xbf, 0xef, 0xde, 0x72, 0x84, 0x7f, 0x7d, 0x39, 0xc4, 0xf4, 0x26, 0xc3, 0x54]),
  ("Server2", [0xd6, 0x61, 0x30, 0x0e, 0xfe, 0x29, 0x5a, 0xa3, 0x48, 0xf2, 0xc8, 0x4f, 0x60, 0x5b, 0xb0, 0x2f]),
  ("Server2_VN_0", [0xd7, 0xd4, 0x7c, 0x66, 0xe3, 0xe5, 0xde, 0xcb, 0xec, 0x6c, 0x74, 0x17, 0x75, 0x48, 0x36, 0x51]),
  ("Server2_VN_1", [0x97, 0x30, 0x0f, 0x2e, 0x14, 0x7a, 0x05, 0x4a, 0x6a, 0xe5, 0xda, 0x6f, 0x50, 0xe1, 0x74, 0x8f]),
  ("Server2_VN_2", [0x7b, 0x60, 0x41, 0xfa, 0x54, 0x81, 0x1b, 0x01, 0x9c, 0x30, 0x94, 0xf5, 0x37, 0xb0, 0x1a, 0x61]),
  ("Server3", [0x02, 0x2c, 0xae, 0x40, 0xd7, 0x07, 0x6a, 0xb2, 0x5a, 0xad, 0xc7, 0xcb, 0x05, 0x50, 0xae, 0x05]),
  ("Server3_VN_0", [0x7b, 0x06, 0xd9, 0xcd, 0x78, 0x7a, 0xaa, 0xe9, 0xe0, 0x2c, 0x91, 0x47, 0xe6, 0x0c, 0x0e, 0x28]),
  ("Server3_VN_1", [0x3b, 0x5c, 0x65, 0x5c, 0xf4, 0x81, 0x95, 0xed, 0x56, 0xf5, 0x67, 0x92, 0xf1, 0xec, 0x41, 0xf8]),
  ("Server3_VN_2", [0x51, 0x6c, 0x7c, 0x0f, 0xcc, 0x02, 0xdc, 0x57, 0x1d, 0xeb, 0x6d, 0x9d, 0xec, 0x7f, 0x4b, 0x61]),
  ("Server4", [0xf8, 0x73, 0x98, 0x71, 0x3d, 0x16, 0x2b, 0x47, 0x8d, 0xf5, 0x89, 0xc2, 0xcf, 0x86, 0xb4, 0xfb]),
  ("Server4_VN_0", [0x9d, 0xd8, 0x50, 0x37, 0x27, 0x02, 0x56, 0x32, 0x03, 0xba, 0x5d, 0x5f, 0x11, 0xa6, 0xd1, 0xee]),
  ("Server4_VN_1", [0x9f, 0xba, 0x2a, 0x4c, 0x36, 0x78, 0x6d, 0x0c, 0x04, 0xc0, 0x08, 0xef, 0x3a, 0x5f, 0xe6, 0x86]),
  ("Server4_VN_2", [0x84, 0x38, 0xc3, 0x28, 0x5f, 0x84, 0xaf, 0x25, 0x49, 0xb6, 0x55, 0x74, 0xe5, 0x86, 0xaa, 0x8d]),
  ("Server1805", [0xeb, 0xad, 0xd2, 0x1f, 0x1c, 0x57, 0xf6, 0x29, 0xa9, 0x11, 0x60, 0xe5, 0x82, 0x96, 0x65, 0x06]),
  ("Server1805_VN_0", [0xed, 0x14, 0x32, 0xfe, 0xfe, 0xec, 0x8a, 0xc7, 0xc3, 0x70, 0x9a, 0x3a, 0x81, 0x11, 0x4e, 0x14]),
  ("Server1805_VN_1", [0xde, 0xcf, 0x9d, 0x5c, 0x2c, 0x4e, 0x0b, 0xd7, 0x86, 0xb5, 0x69, 0x74, 0x9c, 0x91, 0x22, 0x68]),
  ("Server1805_VN_2", [0x85, 0x6c, 0x48, 0x9d, 0xff, 0x20, 0xe3, 0x9e, 0x57, 0x6c, 0x61, 0xbf, 0x88, 0x76, 0x8c, 0x53]),
  ("Server1923", [0x0e, 0x14, 0x32, 0xde, 0xea, 0x0f, 0x9e, 0x6f, 0x99, 0x40, 0x37, 0x4b, 0x06, 0x0c, 0x4a, 0x8e]),
  ("Server1923_VN_0", [0x5a, 0x4e, 0x92, 0xee, 0x30, 0x82, 0xf7, 0x95, 0x03, 0xf2, 0x2f, 0x14, 0x6e, 0xf2, 0x56, 0x56]),
  ("Server1923_VN_1", [0x86, 0x8f, 0x92, 0x05, 0xae, 0x9f, 0xa2, 0x4a, 0x51, 0xee, 0xb4, 0x9d, 0x54, 0x4b, 0x72, 0x1d]),
  ("Server1923_VN_2", [0x8a, 0x43, 0xc5, 0x5c, 0xfa, 0x56, 0x03, 0x3e, 0x8c, 0xd9, 0xd0, 0x3b, 0xb9, 0xc3, 0x46, 0x69]),
  ("Key1", [0xf6, 0x4f, 0x4f, 0x75, 0x0f, 0x09, 0x7b, 0x44, 0x21, 0xa0, 0x50, 0xc9, 0xd1, 0x1d, 0x9c, 0x14]),
  ("Key2", [0xc3, 0x16, 0x50, 0xe3, 0x46, 0x86, 0x53, 0x70, 0x20, 0xee, 0x36, 0x19, 0x0e, 0x71, 0xda, 0x5b]),
  ("Key3", [0x3d, 0x81, 0x00, 0x9a, 0x6c, 0xd9, 0xa2, 0x7e, 0x5e, 0xe8, 0x04, 0x30, 0x24, 0x07, 0x0d, 0xfb]),
  ("Key4", [0xe0, 0x8e, 0x48, 0xaf, 0xa7, 0xb3, 0x09, 0x9b, 0x0d, 0xf1, 0x56, 0x13, 0xb9, 0x07, 0xa6, 0x48]),
  ("Key5", [0x85, 0x01, 0x76, 0x14, 0x11, 0x18, 0x34, 0x9c, 0xa6, 0x86, 0x34, 0x7d, 0x2e, 0xed, 0x0b, 0x55])]

/-- The Go runtime on the names of `digestTable`: `md5.Sum` read off the table, and
`append` doubling the capacity of a full slice (what `runtime.growslice` does for
short slices of strings). -/
def goRuntime : Runtime where
  md5Sum := fun name i => Fin.ofNat (((mapGet? digestTable name).getD []).getD i.val 0)
  growCap := fun c => 2 * c

/-- The driver up to line 21: three servers, then `Key1` to `Key5`. -/
def mainAssigned : Option ConsistentHashing := do
  let ch ← AddServer goRuntime (NewConsistentHashing 3) "Server1"
  let ch ← AddServer goRuntime ch "Server2"
  let ch ← AddServer goRuntime ch "Server3"
  let ch ← AssignKey goRuntime ch "Key1"
  let ch ← AssignKey goRuntime ch "Key2"
  let ch ← AssignKey goRuntime ch "Key3"
  let ch ← AssignKey goRuntime ch "Key4"
  AssignKey goRuntime ch "Key5"

/-- The calls of the exported mutators. -/
inductive Call where
  | addServer (server : String)
  | assignKey (key : String)
  | removeServer (server : String)

/-- One call on a state. -/
def Call.run (rt : Runtime) (ch : ConsistentHashing) : Call → Option ConsistentHashing
  | .addServer server => AddServer rt ch server
  | .assignKey key => AssignKey rt ch key
  | .removeServer server => RemoveServer rt ch server

/-- A sequence of calls, stopping at the first panic. -/
def runCalls (rt : Runtime) (ch : ConsistentHashing) (calls : List Call) :
    Option ConsistentHashing :=
  calls.foldlM (Call.run rt) ch

/-- The calls `main.go` makes up to line 21. -/
def mainCalls : List Call :=
  [.addServer "Server1", .addServer "Server2", .addServer "Server3", .assignKey "Key1",
    .assignKey "Key2", .assignKey "Key3", .assignKey "Key4", .assignKey "Key5"]

/-- The state of the driver at line 21 (the "Initial Key Distribution"). -/
def mainAssignedState : ConsistentHashing where
  hashRing := [(7109663, "Server3"), (6055420, "Server3"), (449021, "Server3"),
    (6308346, "Server2"), (3149694, "Server2"), (13925494, "Server2"),
    (5667263, "Server1"), (2873278, "Server1"), (3525447, "Server1")]
  serverToKeys := [("Server3", ⟨4, 1, 1⟩), ("Server2", ⟨3, 2, 2⟩), ("Server1", ⟨1, 2, 2⟩)]
  virtualNodes := 3
  heap := [["Key1"], ["Key1", "Key2"], ["Key3"], ["Key3", "Key4"], ["Key5"]]

/-- The state of the driver after line 29, `ch.AddServer("Server4")`. -/
def server4AddedState : ConsistentHashing where
  hashRing := [(3720040, "Server4"), (12200700, "Server4"), (14176503, "Server4"),
    (7109663, "Server3"), (6055420, "Server3"), (449021, "Server3"),
    (6308346, "Server2"), (3149694, "Server2"), (13925494, "Server2"),
    (5667263, "Server1"), (2873278, "Server1"), (3525447, "Server1")]
  serverToKeys := [("Server4", ⟨1, 1, 2⟩), ("Server3", ⟨4, 1, 1⟩), ("Server2", ⟨3, 2, 2⟩),
    ("Server1", ⟨1, 2, 2⟩)]
  virtualNodes := 3
  heap := [["Key1"], ["Key2", "Key2"], ["Key3"], ["Key4", "Key1"], ["Key3"], ["Key5"]]

/-- The state of the driver after line 37, `ch.RemoveServer("Server2")`. -/
def server2RemovedState : ConsistentHashing where
  hashRing := [(3720040, "Server4"), (12200700, "Server4"), (14176503, "Server4"),
    (7109663, "Server3"), (6055420, "Server3"), (449021, "Server3"),
    (5667263, "Server1"), (2873278, "Server1"), (3525447, "Server1")]
  serverToKeys := [("Server1", ⟨6, 3, 4⟩), ("Server4", ⟨1, 2, 2⟩), ("Server3", ⟨4, 1, 1⟩),
    ("Server2", ⟨3, 2, 2⟩)]
  virtualNodes := 3
  heap := [["Key1"], ["Key2", "Key4"], ["Key3"], ["Key4", "Key1"], ["Key3"], ["Key5"],
    ["Key2", "Key4", "Key1", ""]]

/-- The state `server4AddedState` after one more call, `ch.AssignKey("Key3")`. -/
def key3AssignedState : ConsistentHashing where
  hashRing := server4AddedState.hashRing
  serverToKeys := [("Server4", ⟨1, 2, 2⟩), ("Server3", ⟨4, 1, 1⟩), ("Server2", ⟨3, 2, 2⟩),
    ("Server1", ⟨1, 2, 2⟩)]
  virtualNodes := 3
  heap := [["Key1"], ["Key2", "Key3"], ["Key3"], ["Key4", "Key1"], ["Key3"], ["Key5"]]

/-- The state `server4AddedState` after `ch.RemoveServer("Server4")` instead. -/
def server4RemovedState : ConsistentHashing where
  hashRing := mainAssignedState.hashRing
  serverToKeys := [("Server1", ⟨6, 3, 4⟩), ("Server4", ⟨1, 1, 2⟩), ("Server3", ⟨4, 1, 1⟩),
    ("Server2", ⟨3, 2, 2⟩)]
  virtualNodes := 3
  heap := [["Key1"], ["Key2", "Key2"], ["Key3"], ["Key4", "Key1"], ["Key3"], ["Key5"],
    ["Key2", "Key2", "Key2", ""]]

/-- A second run: `NewConsistentHashing(3)`, `AddServer("Server1805")`,
`AddServer("Server1923")`, `AssignKey("Key2")`. The MD5 digests of `Server1923` and of
`Server1805_VN_0` are packed to the same integer, 1323774. -/
def collisionCalls : List Call :=
  [.addServer "Server1805", .addServer "Server1923", .assignKey "Key2"]

/-- The state after `collisionCalls`. -/
def collisionState : ConsistentHashing where
  hashRing := [(4441596, "Server1923"), (9409125, "Server1923"), (5149422, "Server1923"),
    (7096541, "Server1805"), (13606396, "Server1805"), (1323774, "Server1805")]
  serverToKeys := [("Server1923", ⟨0, 1, 1⟩), ("Server1805", ⟨0, 0, 0⟩)]
  virtualNodes := 3
  heap := [["Key2"]]

/-- The state `collisionState` after `ch.RemoveServer("Server1923")`. -/
def collisionRemovedState : ConsistentHashing where
  hashRing := [(7096541, "Server1805"), (13606396, "Server1805")]
  serverToKeys := [("Server1805", ⟨1, 1, 1⟩), ("Server1923", ⟨0, 1, 1⟩)]
  virtualNodes := 3
  heap := [["Key2"], ["Key2"]]

/-- A third run: `NewConsistentHashing(3)`, `AddServer("Server1")`, `AssignKey("Key1")`:
one server, one recorded key. -/
def lastServerState : ConsistentHashing where
  hashRing := [(5667263, "Server1"), (2873278, "Server1"), (3525447, "Server1")]
  serverToKeys := [("Server1", ⟨0, 1, 1⟩)]
  virtualNodes := 3
  heap := [["Key1"]]

/-- The state `mainAssignedState` after a second `ch.AddServer("Server1")`. -/
def server1ReaddedState : ConsistentHashing where
  hashRing := [(5667263, "Server1"), (2873278, "Server1"), (3525447, "Server1"),
    (7109663, "Server3"), (6055420, "Server3"), (449021, "Server3"),
    (6308346, "Server2"), (3149694, "Server2"), (13925494, "Server2")]
  serverToKeys := [("Server1", ⟨4, 0, 1⟩), ("Server3", ⟨4, 1, 1⟩), ("Server2", ⟨3, 2, 2⟩)]
  virtualNodes := 3
  heap := [["Key1"], ["Key1", "Key2"], ["Key3"], ["Key4", "Key5"], ["Key5"], ["Key3"]]

/-- A run with one virtual node per server: `NewConsistentHashing(1)`,
`AddServer("Server1")`, then `Key1` to `Key5`. -/
def oneNodeCalls : List Call :=
  [.addServer "Server1", .assignKey "Key1", .assignKey "Key2", .assignKey "Key3",
    .assignKey "Key4", .assignKey "Key5"]

/-- The state after `oneNodeCalls`. -/
def oneNodeState : ConsistentHashing where
  hashRing := [(3525447, "Server1")]
  serverToKeys := [("Server1", ⟨3, 5, 8⟩)]
  virtualNodes := 1
  heap := [["Key1"], ["Key1", "Key2"], ["Key1", "Key2", "Key3", "Key4"],
    ["Key1", "Key2", "Key3", "Key4", "Key5", "", "", ""]]

/-- The elements at the odd places 1, 3, 5, ... of a sequence. -/
def oddElems : List String → List String
  | _ :: b :: rest => b :: oddElems rest
  | _ => []

/-- A slice header is a slice of the store: the length is within the capacity, and a
slice with capacity points to an array of exactly that many places. -/
def sliceOk (heap : List (List String)) (s : Slice) : Prop :=
  s.len ≤ s.cap ∧ (s.cap ≠ 0 → s.ptr < heap.length ∧ (arrayAt heap s.ptr).length = s.cap)

/-- The state is well formed when every slice of `serverToKeys` is a slice of the
store. -/
def wellFormed (ch : ConsistentHashing) : Prop :=
  ∀ e ∈ ch.serverToKeys, sliceOk ch.heap e.2

/-- A server is registered when it owns a ring position or has an entry in
`serverToKeys`. -/
def registered (ch : ConsistentHashing) (server : String) : Prop :=
  server ∈ ch.hashRing.map Prod.snd ∨ server ∈ ch.serverToKeys.map Prod.fst

instance (ch : ConsistentHashing) (server : String) : Decidable (registered ch server) := by
  unfold registered
  infer_instance

/-! ## Helper lemmas -/

theorem reachable_runCalls (rt : Runtime) (calls : List Call) :
    ∀ ch ch1, Reachable rt ch → runCalls rt ch calls = some ch1 → Reachable rt ch1 := by
  induction calls with
  | nil =>
    intro ch ch1 hr h
    simp [runCalls] at h
    exact h ▸ hr
  | cons c cs ih =>
    intro ch ch1 hr h
    simp only [runCalls, List.foldlM_cons, Option.bind_eq_bind, Option.bind_eq_some] at h
    obtain ⟨ch2, h2, h3⟩ := h
    refine ih ch2 ch1 ?_ h3
    cases c with
    | addServer s => exact Reachable.addServer s hr h2
    | assignKey k => exact Reachable.assignKey k hr h2
    | removeServer s => exact Reachable.removeServer s hr h2

theorem mapGet?_mapDelete {κ ν : Type} [DecidableEq κ] (m : List (κ × ν)) (k p : κ) :
    mapGet? (mapDelete m k) p = if k = p then none else mapGet? m p := by
  induction m with
  | nil => simp [mapDelete, mapGet?]
  | cons e m ih =>
    obtain ⟨a, b⟩ := e
    unfold mapDelete at ih ⊢
    by_cases hak : a = k
    · subst hak
      by_cases hap : a = p
      · simpa [List.filter, hap] using ih
      · simpa [List.filter, mapGet?, hap] using ih
    · by_cases hap : a = p
      · subst hap
        have hka : ¬ k = a := fun h => hak h.symm
        simp [List.filter, mapGet?, hak, hka]
      · simp only [List.filter, hak, ne_eq, not_false_eq_true, decide_True, mapGet?, hap,
          if_false]
        exact ih

theorem mapGet?_mapSet {κ ν : Type} [DecidableEq κ] (m : List (κ × ν)) (k p : κ) (v : ν) :
    mapGet? (mapSet m k v) p = if k = p then some v else mapGet? m p := by
  by_cases h : k = p
  · simp [mapSet, mapGet?, h]
  · simp [mapSet, mapGet?, h, mapGet?_mapDelete]

theorem mem_keys_iff {κ ν : Type} [DecidableEq κ] (m : List (κ × ν)) (p : κ) :
    p ∈ m.map Prod.fst ↔ ∃ t, mapGet? m p = some t := by
  induction m with
  | nil => simp [mapGet?]
  | cons e m ih =>
    obtain ⟨a, b⟩ := e
    by_cases hap : a = p
    · simp [mapGet?, hap]
    · have hpa : ¬ p = a := fun h => hap h.symm
      simp only [List.map_cons, List.mem_cons, hpa, false_or, mapGet?, hap, if_false]
      exact ih

theorem sortedKeys_sorted (hashRing : List (Int × String)) :
    (sortedKeys hashRing).Sorted (fun a b => a ≤ b) :=
  List.sorted_insertionSort _ _

theorem mem_sortedKeys (hashRing : List (Int × String)) (q : Int) :
    q ∈ sortedKeys hashRing ↔ q ∈ hashRing.map Prod.fst := by
  unfold sortedKeys
  exact (List.perm_insertionSort _ _).mem_iff

theorem sortedKeys_ne_nil (hashRing : List (Int × String)) (h : hashRing ≠ []) :
    sortedKeys hashRing ≠ [] := by
  intro hs
  have hl := List.length_insertionSort (fun a b : Int => a ≤ b) (hashRing.map Prod.fst)
  unfold sortedKeys at hs
  rw [hs] at hl
  have h0 : hashRing.length = 0 := by simpa using hl.symm
  exact h (List.length_eq_zero.1 h0)

/-- In a sorted list `find?` returns the least element that passes the test. -/
theorem find?_sorted_least (f : Int → Bool) :
    ∀ (l : List Int), l.Sorted (fun a b => a ≤ b) → ∀ a, l.find? f = some a →
      a ∈ l ∧ f a = true ∧ ∀ q ∈ l, f q = true → a ≤ q := by
  intro l
  induction l with
  | nil => intro _ a h; simp at h
  | cons x xs ih =>
    intro hs a h
    have hx := List.rel_of_sorted_cons hs
    by_cases hfx : f x = true
    · rw [List.find?_cons_of_pos _ hfx] at h
      cases h
      refine ⟨List.mem_cons_self _ _, hfx, ?_⟩
      intro q hq _
      rcases List.mem_cons.1 hq with rfl | hq
      · exact le_refl _
      · exact hx q hq
    · rw [List.find?_cons_of_neg _ hfx] at h
      obtain ⟨h1, h2, h3⟩ := ih hs.of_cons a h
      refine ⟨List.mem_cons_of_mem _ h1, h2, ?_⟩
      intro q hq hfq
      rcases List.mem_cons.1 hq with rfl | hq
      · exact absurd hfq hfx
      · exact h3 q hq hfq

/-- The head of a sorted list is its least element. -/
theorem head?_sorted_least (l : List Int) (hs : l.Sorted (fun a b => a ≤ b)) (a : Int)
    (h : l.head? = some a) : a ∈ l ∧ ∀ q ∈ l, a ≤ q := by
  cases l with
  | nil => simp at h
  | cons x xs =>
    simp at h
    subst h
    refine ⟨List.mem_cons_self _ _, ?_⟩
    intro q hq
    rcases List.mem_cons.1 hq with rfl | hq
    · exact le_refl _
    · exact List.rel_of_sorted_cons hs q hq

theorem ringAt_of_mem (hashRing : List (Int × String)) (p : Int)
    (h : p ∈ hashRing.map Prod.fst) : mapGet? hashRing p = some (ringAt hashRing p) := by
  obtain ⟨t, ht⟩ := (mem_keys_iff hashRing p).1 h
  simp [ringAt, ht]

/-- On a non-empty ring `GetServer` returns the owner of some ring position. -/
theorem getServer_owner (rt : Runtime) (ch : ConsistentHashing) (key : String)
    (hne : ch.hashRing ≠ []) :
    ∃ p owner, GetServer rt ch key = some owner ∧ mapGet? ch.hashRing p = some owner := by
  cases hf : (sortedKeys ch.hashRing).find? (fun h => decide (h ≥ hash rt key)) with
  | some a =>
    exact ⟨a, ringAt ch.hashRing a, by simp only [GetServer, hf],
      ringAt_of_mem _ _ ((mem_sortedKeys _ _).1 (List.mem_of_find?_eq_some hf))⟩
  | none =>
    cases hh : (sortedKeys ch.hashRing).head? with
    | none => exact absurd (List.head?_eq_none_iff.1 hh) (sortedKeys_ne_nil _ hne)
    | some a =>
      exact ⟨a, ringAt ch.hashRing a, by simp only [GetServer, hf, hh],
        ringAt_of_mem _ _ ((mem_sortedKeys _ _).1 (List.mem_of_mem_head? hh))⟩

theorem appendKey_hashRing (rt : Runtime) (ch : ConsistentHashing) (server key : String) :
    (appendKey rt ch server key).hashRing = ch.hashRing := rfl

theorem appendKey_virtualNodes (rt : Runtime) (ch : ConsistentHashing) (server key : String) :
    (appendKey rt ch server key).virtualNodes = ch.virtualNodes := rfl

/-- One iteration of the inner loop: under its guard neither the index expression nor
the slice expressions panic. -/
theorem reassignLoop_succ (rt : Runtime) (newServer : String) (vh nh : Int)
    (fuel i : Nat) (ch : ConsistentHashing) (nsk : Slice) :
    reassignLoop rt newServer vh nh (fuel + 1) i ch nsk =
      if i < nsk.len then
        if hash rt (index ch.heap nsk i) ≤ vh ∨ (nh ≠ 0 ∧ vh < nh) then
          reassignLoop rt newServer vh nh fuel (i + 1)
            { appendKey rt ch newServer (index ch.heap nsk i) with
              heap := (deleteAt (appendKey rt ch newServer (index ch.heap nsk i)).heap
                nsk i).1 }
            (deleteAt (appendKey rt ch newServer (index ch.heap nsk i)).heap nsk i).2
        else reassignLoop rt newServer vh nh fuel (i + 1) ch nsk
      else some (ch, nsk) := by
  by_cases h1 : i < nsk.len
  · have h2 : i + 1 ≤ nsk.len := h1
    simp only [reassignLoop, index?, deleteAt?, h1, h2, if_true]
  · simp only [reassignLoop, h1, if_false]

/-- The inner loop of the reassignment always returns and changes neither the ring nor
`virtualNodes`. -/
theorem reassignLoop_frame (rt : Runtime) (newServer : String) (vh nh : Int) :
    ∀ (fuel i : Nat) (ch : ConsistentHashing) (nsk : Slice),
      ∃ r, reassignLoop rt newServer vh nh fuel i ch nsk = some r ∧
        r.1.hashRing = ch.hashRing ∧ r.1.virtualNodes = ch.virtualNodes := by
  intro fuel
  induction fuel with
  | zero => intro i ch nsk; exact ⟨_, rfl, rfl, rfl⟩
  | succ n ih =>
    intro i ch nsk
    rw [reassignLoop_succ]
    split_ifs
    · exact ih _ _ _
    · exact ih _ _ _
    · exact ⟨_, rfl, rfl, rfl⟩

theorem nextServerHashOf_isSome (keys : List Int) (vh : Int) (h : keys ≠ []) :
    ∃ nh, nextServerHashOf keys vh = some nh := by
  unfold nextServerHashOf
  cases keys with
  | nil => exact absurd rfl h
  | cons x xs =>
    simp only [List.head?_cons]
    split
    · exact ⟨x, rfl⟩
    · exact ⟨_, rfl⟩

/-- One virtual node of the reassignment: it returns whenever the ring is non-empty and
changes neither the ring nor `virtualNodes`. -/
theorem reassignVirtualNode_frame (rt : Runtime) (newServer : String) (ch : ConsistentHashing)
    (i : Nat) (hne : ch.hashRing ≠ []) :
    ∃ ch1, reassignVirtualNode rt newServer ch i = some ch1 ∧
      ch1.hashRing = ch.hashRing ∧ ch1.virtualNodes = ch.virtualNodes := by
  obtain ⟨nh, hnh⟩ := nextServerHashOf_isSome (sortedKeys ch.hashRing)
    (hash rt (virtualNodeName newServer i)) (sortedKeys_ne_nil _ hne)
  unfold reassignVirtualNode
  simp only [hnh]
  by_cases hs : ringAt ch.hashRing nh ≠ newServer
  · rw [if_pos hs]
    obtain ⟨r, hr, h1, h2⟩ := reassignLoop_frame rt newServer
      (hash rt (virtualNodeName newServer i)) nh (keysSlice ch (ringAt ch.hashRing nh)).len 0
      ch (keysSlice ch (ringAt ch.hashRing nh))
    simp only [hr]
    exact ⟨_, rfl, h1, h2⟩
  · rw [if_neg hs]
    exact ⟨ch, rfl, rfl, rfl⟩

/-- A monadic fold whose steps all return and keep `P` returns and keeps `P`. -/
theorem foldlM_total {α β : Type} (f : β → α → Option β) (P : β → Prop)
    (hf : ∀ b a, P b → ∃ b1, f b a = some b1 ∧ P b1) :
    ∀ (l : List α) (b : β), P b → ∃ b1, l.foldlM f b = some b1 ∧ P b1 := by
  intro l
  induction l with
  | nil => intro b hb; exact ⟨b, rfl, hb⟩
  | cons a l ih =>
    intro b hb
    obtain ⟨b1, h1, hp⟩ := hf b a hb
    obtain ⟨b2, h2, hp2⟩ := ih b1 hp
    exact ⟨b2, by simp [List.foldlM_cons, h1, h2], hp2⟩

/-- A monadic fold whose steps keep `P` keeps `P` when it returns. -/
theorem foldlM_keeps {α β : Type} (f : β → α → Option β) (P : β → Prop)
    (hf : ∀ b a b1, P b → f b a = some b1 → P b1) :
    ∀ (l : List α) (b b1 : β), P b → l.foldlM f b = some b1 → P b1 := by
  intro l
  induction l with
  | nil =>
    intro b b1 hb h
    simp at h
    exact h ▸ hb
  | cons a l ih =>
    intro b b1 hb h
    simp only [List.foldlM_cons, Option.bind_eq_bind, Option.bind_eq_some] at h
    obtain ⟨b2, h2, h3⟩ := h
    exact ih b2 b1 (hf b a b2 hb h2) h3

theorem insertVirtualNodes_succ (rt : Runtime) (hashRing : List (Int × String))
    (server : String) (n : Nat) :
    insertVirtualNodes rt hashRing server (n + 1) =
      mapSet (insertVirtualNodes rt hashRing server n) (hash rt (virtualNodeName server n))
        server := by
  simp [insertVirtualNodes, List.range_succ, List.foldl_append]

theorem deleteVirtualNodes_succ (rt : Runtime) (hashRing : List (Int × String))
    (server : String) (n : Nat) :
    deleteVirtualNodes rt hashRing server (n + 1) =
      mapDelete (deleteVirtualNodes rt hashRing server n)
        (hash rt (virtualNodeName server n)) := by
  simp [deleteVirtualNodes, List.range_succ, List.foldl_append]

/-- The ring after the insertion loop of `AddServer`. -/
theorem mapGet?_insertVirtualNodes (rt : Runtime) (hashRing : List (Int × String))
    (server : String) (n : Nat) (p : Int) :
    mapGet? (insertVirtualNodes rt hashRing server n) p =
      if ∃ i, i < n ∧ hash rt (virtualNodeName server i) = p then some server
      else mapGet? hashRing p := by
  induction n with
  | zero => simp [insertVirtualNodes]
  | succ n ih =>
    rw [insertVirtualNodes_succ, mapGet?_mapSet, ih]
    by_cases h1 : hash rt (virtualNodeName server n) = p
    · have : ∃ i, i < n + 1 ∧ hash rt (virtualNodeName server i) = p := ⟨n, by omega, h1⟩
      simp [h1, this]
    · by_cases h2 : ∃ i, i < n ∧ hash rt (virtualNodeName server i) = p
      · obtain ⟨i, hi, hp⟩ := h2
        have h3 : ∃ i, i < n ∧ hash rt (virtualNodeName server i) = p := ⟨i, hi, hp⟩
        have h4 : ∃ i, i < n + 1 ∧ hash rt (virtualNodeName server i) = p :=
          ⟨i, by omega, hp⟩
        simp [h1, h3, h4]
      · have h4 : ¬ ∃ i, i < n + 1 ∧ hash rt (virtualNodeName server i) = p := by
          rintro ⟨i, hi, hp⟩
          rcases Nat.lt_succ_iff_lt_or_eq.1 hi with hlt | heq
          · exact h2 ⟨i, hlt, hp⟩
          · exact h1 (heq ▸ hp)
        simp [h1, h2, h4]

/-- The ring after the deletion loop of `RemoveServer`. -/
theorem mapGet?_deleteVirtualNodes (rt : Runtime) (hashRing : List (Int × String))
    (server : String) (n : Nat) (p : Int) :
    mapGet? (deleteVirtualNodes rt hashRing server n) p =
      if ∃ i, i < n ∧ hash rt (virtualNodeName server i) = p then none
      else mapGet? hashRing p := by
  induction n with
  | zero => simp [deleteVirtualNodes]
  | succ n ih =>
    rw [deleteVirtualNodes_succ, mapGet?_mapDelete, ih]
    by_cases h1 : hash rt (virtualNodeName server n) = p
    · have : ∃ i, i < n + 1 ∧ hash rt (virtualNodeName server i) = p := ⟨n, by omega, h1⟩
      simp [h1, this]
    · by_cases h2 : ∃ i, i < n ∧ hash rt (virtualNodeName server i) = p
      · obtain ⟨i, hi, hp⟩ := h2
        have h3 : ∃ i, i < n ∧ hash rt (virtualNodeName server i) = p := ⟨i, hi, hp⟩
        have h4 : ∃ i, i < n + 1 ∧ hash rt (virtualNodeName server i) = p :=
          ⟨i, by omega, hp⟩
        simp [h1, h3, h4]
      · have h4 : ¬ ∃ i, i < n + 1 ∧ hash rt (virtualNodeName server i) = p := by
          rintro ⟨i, hi, hp⟩
          rcases Nat.lt_succ_iff_lt_or_eq.1 hi with hlt | heq
          · exact h2 ⟨i, hlt, hp⟩
          · exact h1 (heq ▸ hp)
        simp [h1, h2, h4]

/-- `AddServer` always returns; its ring is the old ring with the virtual nodes of the
server inserted, and `virtualNodes` is unchanged. -/
theorem addServer_ring (rt : Runtime) (ch : ConsistentHashing) (server : String) :
    ∃ ch1, AddServer rt ch server = some ch1 ∧
      ch1.hashRing = insertVirtualNodes rt ch.hashRing server ch.virtualNodes.toNat ∧
      ch1.virtualNodes = ch.virtualNodes := by
  unfold AddServer reassignKeysAfterServerAddition
  cases hn : ch.virtualNodes.toNat with
  | zero => exact ⟨_, rfl, by simp [insertVirtualNodes], rfl⟩
  | succ n =>
    have hne : insertVirtualNodes rt ch.hashRing server (n + 1) ≠ [] := by
      rw [insertVirtualNodes_succ]
      simp [mapSet]
    obtain ⟨ch1, h1, h2, h3⟩ := foldlM_total (reassignVirtualNode rt server)
      (fun c => c.hashRing = insertVirtualNodes rt ch.hashRing server (n + 1) ∧
        c.virtualNodes = ch.virtualNodes)
      (by
        intro b a hb
        obtain ⟨b1, hb1, hr, hv⟩ := reassignVirtualNode_frame rt server b a (hb.1 ▸ hne)
        exact ⟨b1, hb1, hr.trans hb.1, hv.trans hb.2⟩)
      (List.range (n + 1))
      { ch with
        serverToKeys := mapSet ch.serverToKeys server Slice.empty
        hashRing := insertVirtualNodes rt ch.hashRing server (n + 1) }
      ⟨rfl, rfl⟩
    exact ⟨ch1, h1, h2, h3⟩

theorem reassignRemovedKey_frame (rt : Runtime) (keysToReassign : Slice)
    (ch ch1 : ConsistentHashing) (idx : Nat)
    (h : reassignRemovedKey rt keysToReassign ch idx = some ch1) :
    ch1.hashRing = ch.hashRing ∧ ch1.virtualNodes = ch.virtualNodes := by
  unfold reassignRemovedKey at h
  cases hg : GetServer rt ch (index ch.heap keysToReassign idx) with
  | none => simp [hg] at h
  | some t =>
    simp only [hg, Option.some.injEq] at h
    subst h
    exact ⟨rfl, rfl⟩

/-- When `RemoveServer` returns, `virtualNodes` is unchanged and a ring position is
bound afterwards only if it is none of the virtual nodes of the server and was bound
to the same owner before. -/
theorem removeServer_ring (rt : Runtime) (ch ch1 : ConsistentHashing) (server : String)
    (h : RemoveServer rt ch server = some ch1) :
    ch1.virtualNodes = ch.virtualNodes ∧
    ∀ p t, mapGet? ch1.hashRing p = some t →
      mapGet? ch.hashRing p = some t ∧
      ¬ ∃ i, i < ch.virtualNodes.toNat ∧ hash rt (virtualNodeName server i) = p := by
  have key : ∀ p t,
      mapGet? (deleteVirtualNodes rt ch.hashRing server ch.virtualNodes.toNat) p = some t →
      mapGet? ch.hashRing p = some t ∧
      ¬ ∃ i, i < ch.virtualNodes.toNat ∧ hash rt (virtualNodeName server i) = p := by
    intro p t hp
    rw [mapGet?_deleteVirtualNodes] at hp
    by_cases hex : ∃ i, i < ch.virtualNodes.toNat ∧ hash rt (virtualNodeName server i) = p
    · rw [if_pos hex] at hp
      cases hp
    · rw [if_neg hex] at hp
      exact ⟨hp, hex⟩
  unfold RemoveServer reassignKeysAfterServerRemoval at h
  simp only [] at h
  split_ifs at h with hlen
  · simp only [Option.some.injEq] at h
    subst h
    exact ⟨rfl, key⟩
  · have hk := foldlM_keeps (reassignRemovedKey rt _)
      (fun c => c.hashRing = mapDelete
          (deleteVirtualNodes rt ch.hashRing server ch.virtualNodes.toNat) (hash rt server) ∧
        c.virtualNodes = ch.virtualNodes)
      (by
        intro b a b1 hb hb1
        obtain ⟨hr, hv⟩ := reassignRemovedKey_frame rt _ b b1 a hb1
        exact ⟨hr.trans hb.1, hv.trans hb.2⟩)
      _ _ ch1 (by exact ⟨rfl, rfl⟩) h
    refine ⟨hk.2, ?_⟩
    intro p t hp
    rw [hk.1, mapGet?_mapDelete] at hp
    by_cases hsp : hash rt server = p
    · rw [if_pos hsp] at hp
      cases hp
    · rw [if_neg hsp] at hp
      exact key p t hp

/-- The bound on the iterations of the inner loop is never reached: any two bounds of at
least `len(nextServerKeys) - i` give the same result. -/
theorem reassignLoop_fuel (rt : Runtime) (newServer : String) (vh nh : Int) :
    ∀ (fuel fuel2 i : Nat) (ch : ConsistentHashing) (nsk : Slice),
      nsk.len - i ≤ fuel → nsk.len - i ≤ fuel2 →
      reassignLoop rt newServer vh nh fuel i ch nsk =
        reassignLoop rt newServer vh nh fuel2 i ch nsk := by
  intro fuel
  induction fuel with
  | zero =>
    intro fuel2 i ch nsk h1 _
    have hge : ¬ i < nsk.len := by omega
    cases fuel2 with
    | zero => rfl
    | succ m => rw [reassignLoop_succ, if_neg hge]; rfl
  | succ n ih =>
    intro fuel2 i ch nsk h1 h2
    cases fuel2 with
    | zero =>
      have hge : ¬ i < nsk.len := by omega
      rw [reassignLoop_succ, if_neg hge]
      rfl
    | succ m =>
      rw [reassignLoop_succ, reassignLoop_succ]
      split_ifs
      · exact ih m (i + 1) _ _ (by simp only [deleteAt]; omega) (by simp only [deleteAt]; omega)
      · exact ih m (i + 1) _ _ (by omega) (by omega)
      · rfl

/-- `RemoveServer` returns when the server has no recorded key, and when the ring it
leaves is not empty. -/
theorem removeServer_returns (rt : Runtime) (ch : ConsistentHashing) (server : String)
    (h : (keysSlice ch server).len = 0 ∨
      mapDelete (deleteVirtualNodes rt ch.hashRing server ch.virtualNodes.toNat)
        (hash rt server) ≠ []) :
    ∃ ch1, RemoveServer rt ch server = some ch1 := by
  unfold RemoveServer reassignKeysAfterServerRemoval
  simp only []
  split_ifs with hlen
  · exact ⟨_, rfl⟩
  · have hne := h.resolve_left hlen
    obtain ⟨ch1, h1, _⟩ := foldlM_total (reassignRemovedKey rt (keysSlice ch server))
      (fun c => c.hashRing = mapDelete
        (deleteVirtualNodes rt ch.hashRing server ch.virtualNodes.toNat) (hash rt server))
      (by
        intro b a hb
        obtain ⟨q, owner, hg, _⟩ := getServer_owner rt b (index b.heap (keysSlice ch server) a)
          (hb ▸ hne)
        exact ⟨appendKey rt b owner (index b.heap (keysSlice ch server) a),
          by simp only [reassignRemovedKey, hg], hb⟩)
      (List.range (keysSlice ch server).len)
      { ch with
        hashRing := mapDelete
          (deleteVirtualNodes rt ch.hashRing server ch.virtualNodes.toNat) (hash rt server) }
      (by exact rfl)
    exact ⟨ch1, h1⟩

theorem assignKey_frame (rt : Runtime) (ch ch1 : ConsistentHashing) (key : String)
    (h : AssignKey rt ch key = some ch1) :
    ch1.hashRing = ch.hashRing ∧ ch1.virtualNodes = ch.virtualNodes := by
  unfold AssignKey at h
  cases hg : GetServer rt ch key with
  | none => simp [hg] at h
  | some t =>
    simp only [hg, Option.some.injEq] at h
    subst h
    exact ⟨rfl, rfl⟩

/-- Every ring entry of a reachable state is a virtual node of its owner. -/
theorem reachable_ring_entries (rt : Runtime) (ch : ConsistentHashing)
    (hr : Reachable rt ch) :
    ∀ p t, mapGet? ch.hashRing p = some t →
      ∃ i : Nat, (i : Int) < ch.virtualNodes ∧ p = hash rt (virtualNodeName t i) := by
  induction hr with
  | init vn =>
    intro p t h
    simp [NewConsistentHashing, mapGet?] at h
  | @addServer c c1 server _ hadd ih =>
    intro p t h
    obtain ⟨c2, h2, hring, hvn⟩ := addServer_ring rt c server
    rw [hadd] at h2
    cases h2
    rw [hring, mapGet?_insertVirtualNodes] at h
    by_cases hex : ∃ i, i < c.virtualNodes.toNat ∧ hash rt (virtualNodeName server i) = p
    · rw [if_pos hex] at h
      cases h
      obtain ⟨i, hi, hp⟩ := hex
      exact ⟨i, by rw [hvn]; omega, hp.symm⟩
    · rw [if_neg hex] at h
      obtain ⟨i, hi, hp⟩ := ih p t h
      exact ⟨i, by rw [hvn]; exact hi, hp⟩
  | @assignKey c c1 key _ hassign ih =>
    intro p t h
    obtain ⟨hring, hvn⟩ := assignKey_frame rt c c1 key hassign
    rw [hring] at h
    obtain ⟨i, hi, hp⟩ := ih p t h
    exact ⟨i, by rw [hvn]; exact hi, hp⟩
  | @removeServer c c1 server _ hrem ih =>
    intro p t h
    obtain ⟨hvn, hsub⟩ := removeServer_ring rt c c1 server hrem
    obtain ⟨i, hi, hp⟩ := ih p t (hsub p t h).1
    exact ⟨i, by rw [hvn]; exact hi, hp⟩

theorem getServer_empty (rt : Runtime) (ch : ConsistentHashing) (key : String)
    (h : ch.hashRing = []) : GetServer rt ch key = none := by
  simp [GetServer, sortedKeys, h]

/-- The packed integer is below `2 ^ 24`. -/
theorem packDigest_lt (digest : Fin 16 → Fin 256) : packDigest digest < 2 ^ 24 := by
  unfold packDigest
  have h0 : ((digest 0).val <<< 4) % 256 < 2 ^ 24 :=
    Nat.lt_of_lt_of_le (Nat.mod_lt _ (by decide)) (by decide)
  have h1 : (digest 1).val <<< 16 < 2 ^ 24 := by
    have := (digest 1).isLt
    rw [Nat.shiftLeft_eq]
    omega
  have h2 : (digest 2).val <<< 8 < 2 ^ 24 := by
    have := (digest 2).isLt
    rw [Nat.shiftLeft_eq]
    omega
  have h3 : (digest 3).val < 2 ^ 24 := by
    have := (digest 3).isLt
    omega
  have h := Nat.or_lt_two_pow (Nat.or_lt_two_pow (Nat.or_lt_two_pow h0 h1) h2) h3
  have h4 := Int.ofNat_lt.2 h
  have h5 : ((2 ^ 24 : Nat) : Int) = 2 ^ 24 := by norm_num
  rw [h5] at h4
  exact h4

theorem packDigest_nonneg (digest : Fin 16 → Fin 256) : 0 ≤ packDigest digest :=
  Int.ofNat_nonneg _

theorem hash_nonneg (rt : Runtime) (key : String) : 0 ≤ hash rt key :=
  packDigest_nonneg _

theorem nextServerHashOf_mem (keys : List Int) (vh nh : Int)
    (h : nextServerHashOf keys vh = some nh) : nh ∈ keys := by
  unfold nextServerHashOf at h
  cases hf : keys.find? (fun h => decide (h > vh)) with
  | none =>
    simp only [hf, if_true] at h
    exact List.mem_of_mem_head? h
  | some a =>
    simp only [hf] at h
    split_ifs at h with h0
    · exact List.mem_of_mem_head? h
    · cases h
      exact List.mem_of_find?_eq_some hf

/-- The successor search of the reassignment on a sorted, non-empty list of keys and a
non-negative position `p`: the least key above `p`, else the least key. -/
theorem nextServerHashOf_spec (keys : List Int) (hs : keys.Sorted (fun a b => a ≤ b))
    (hne : keys ≠ []) (p : Int) (hp : 0 ≤ p) :
    ∃ nh, nextServerHashOf keys p = some nh ∧ nh ∈ keys ∧
      ((p < nh ∧ ∀ q ∈ keys, p < q → nh ≤ q) ∨
       ((∀ q ∈ keys, q ≤ p) ∧ ∀ q ∈ keys, nh ≤ q)) := by
  cases hf : keys.find? (fun h => decide (h > p)) with
  | some a =>
    obtain ⟨h1, h2, h3⟩ := find?_sorted_least _ _ hs a hf
    have hpa : p < a := by simpa using h2
    have ha0 : ¬ a = 0 := by omega
    refine ⟨a, by simp only [nextServerHashOf, hf, if_neg ha0], h1, Or.inl ⟨hpa, ?_⟩⟩
    intro q hq hpq
    exact h3 q hq (by simpa using hpq)
  | none =>
    cases hh : keys.head? with
    | none => exact absurd (List.head?_eq_none_iff.1 hh) hne
    | some a =>
      obtain ⟨h1, h2⟩ := head?_sorted_least _ hs a hh
      refine ⟨a, by simp only [nextServerHashOf, hf, if_true, hh], h1, Or.inr ⟨?_, h2⟩⟩
      intro q hq
      have := List.find?_eq_none.1 hf q hq
      simpa using this

theorem insertVirtualNodes_mem (rt : Runtime) (hashRing : List (Int × String))
    (server : String) (n i : Nat) (hi : i < n) :
    hash rt (virtualNodeName server i) ∈
      (insertVirtualNodes rt hashRing server n).map Prod.fst := by
  rw [mem_keys_iff, mapGet?_insertVirtualNodes]
  have hex : ∃ j, j < n ∧ hash rt (virtualNodeName server j) =
      hash rt (virtualNodeName server i) := ⟨i, hi, rfl⟩
  rw [if_pos hex]
  exact ⟨server, rfl⟩

theorem mapSet_mapDelete {κ ν : Type} [DecidableEq κ] (m : List (κ × ν)) (k : κ) (v : ν) :
    mapSet (mapDelete m k) k v = mapSet m k v := by
  simp [mapSet, mapDelete, List.filter_filter]

/-- A monadic fold whose steps all return their argument returns its argument. -/
theorem foldlM_fixed {α β : Type} (f : β → α → Option β) (b : β) :
    ∀ (l : List α), (∀ a ∈ l, f b a = some b) → l.foldlM f b = some b := by
  intro l
  induction l with
  | nil => intro _; rfl
  | cons a l ih =>
    intro h
    have h1 := h a (List.mem_cons_self _ _)
    have h2 := ih (fun x hx => h x (List.mem_cons_of_mem _ hx))
    simp [List.foldlM_cons, h1, h2]

/-- Every owner of the ring that the insertion loop builds from the empty ring is the
new server. -/
theorem insertVirtualNodes_nil_owner (rt : Runtime) (server : String) (n : Nat) (p : Int)
    (h : p ∈ (insertVirtualNodes rt [] server n).map Prod.fst) :
    ringAt (insertVirtualNodes rt [] server n) p = server := by
  obtain ⟨t, ht⟩ := (mem_keys_iff _ _).1 h
  have ht2 := ht
  rw [mapGet?_insertVirtualNodes] at ht2
  split_ifs at ht2
  · cases ht2
    simp [ringAt, ht]
  · simp [mapGet?] at ht2

/-- When the successor of every virtual node of the new server is owned by the new
server, the reassignment pass of `AddServer` changes nothing. -/
theorem addServer_no_reassignment (rt : Runtime) (ch : ConsistentHashing) (s : String)
    (h : ∀ i, i < ch.virtualNodes.toNat → ∀ nh,
      nextServerHashOf
        (sortedKeys (insertVirtualNodes rt ch.hashRing s ch.virtualNodes.toNat))
        (hash rt (virtualNodeName s i)) = some nh →
      ringAt (insertVirtualNodes rt ch.hashRing s ch.virtualNodes.toNat) nh = s) :
    AddServer rt ch s = some
      { ch with
        serverToKeys := mapSet ch.serverToKeys s Slice.empty
        hashRing := insertVirtualNodes rt ch.hashRing s ch.virtualNodes.toNat } := by
  unfold AddServer reassignKeysAfterServerAddition
  apply foldlM_fixed
  intro i hi
  have hi2 : i < ch.virtualNodes.toNat := List.mem_range.1 hi
  have hmem := insertVirtualNodes_mem rt ch.hashRing s ch.virtualNodes.toNat i hi2
  obtain ⟨nh, hnh⟩ := nextServerHashOf_isSome
    (sortedKeys (insertVirtualNodes rt ch.hashRing s ch.virtualNodes.toNat))
    (hash rt (virtualNodeName s i)) (List.ne_nil_of_mem ((mem_sortedKeys _ _).2 hmem))
  have hown := h i hi2 nh hnh
  unfold reassignVirtualNode
  simp only [hnh]
  rw [if_neg (by simpa using hown)]

theorem arrayAt_set_self (heap : List (List String)) (p : Nat) (v : List String)
    (h : p < heap.length) : arrayAt (heap.set p v) p = v := by
  simp [arrayAt, List.getElem?_set_self h]

theorem arrayAt_set_ne (heap : List (List String)) (p q : Nat) (v : List String)
    (h : p ≠ q) : arrayAt (heap.set p v) q = arrayAt heap q := by
  simp [arrayAt, List.getElem?_set_ne h]

theorem arrayAt_append_left (heap l : List (List String)) (q : Nat) (h : q < heap.length) :
    arrayAt (heap ++ l) q = arrayAt heap q := by
  simp [arrayAt, List.getElem?_append_left h]

theorem oddElems_skip_aux (A : List String) (x : String) (B : List String) :
    (A ++ B).take (A.length + 1) ++ oddElems ((A ++ B).drop (A.length + 1)) =
      A ++ oddElems (x :: B) := by
  cases B with
  | nil =>
    rw [List.append_nil, List.take_of_length_le (by omega), List.drop_of_length_le (by omega)]
    simp [oddElems]
  | cons y B =>
    rw [List.take_append, List.drop_append]
    simp [oddElems]

theorem oddElems_skip (L : List String) (i : Nat) (hi : i < L.length) :
    (L.take i ++ L.drop (i + 1)).take (i + 1) ++
        oddElems ((L.take i ++ L.drop (i + 1)).drop (i + 1)) =
      L.take i ++ oddElems (L.drop i) := by
  have hA : (L.take i).length = i := by
    rw [List.length_take]; omega
  have h := oddElems_skip_aux (L.take i) L[i] (L.drop (i + 1))
  rw [hA] at h
  rw [h, ← List.drop_eq_getElem_cons hi]

theorem take_deleted (a : List String) (i len : Nat) (hi : i < len) (hl : len ≤ a.length) :
    (a.take i ++ (a.drop (i + 1)).take (len - i - 1) ++ a.drop (len - 1)).take (len - 1) =
      (a.take len).take i ++ (a.take len).drop (i + 1) := by
  have h1 : (a.take i ++ (a.drop (i + 1)).take (len - i - 1)).length = len - 1 := by
    simp only [List.length_append, List.length_take, List.length_drop]
    omega
  rw [List.take_left' h1, List.take_take, List.drop_take]
  have h2 : min i len = i := by omega
  have h3 : len - (i + 1) = len - i - 1 := by omega
  rw [h2, h3]

theorem length_deleted (a : List String) (i len : Nat) (hi : i < len) (hl : len ≤ a.length) :
    (a.take i ++ (a.drop (i + 1)).take (len - i - 1) ++ a.drop (len - 1)).length =
      a.length := by
  simp only [List.length_append, List.length_take, List.length_drop]
  omega

theorem mapGet?_mem {κ ν : Type} [DecidableEq κ] (m : List (κ × ν)) (k : κ) (v : ν)
    (h : mapGet? m k = some v) : (k, v) ∈ m := by
  induction m with
  | nil => simp [mapGet?] at h
  | cons e m ih =>
    obtain ⟨a, b⟩ := e
    by_cases hak : a = k
    · simp only [mapGet?, hak, if_true, Option.some.injEq] at h
      subst h
      subst hak
      exact List.mem_cons_self _ _
    · simp only [mapGet?, hak, if_false] at h
      exact List.mem_cons_of_mem _ (ih h)

theorem keysSlice_appendKey (rt : Runtime) (ch : ConsistentHashing) (server key : String) :
    keysSlice (appendKey rt ch server key) server =
      (appendOne rt ch.heap (keysSlice ch server) key).2 := by
  simp [keysSlice, appendKey, mapGet?_mapSet]

/-- Appending to a slice that is empty or lives in an array allocated at or after `H0`
leaves every array below `H0` alone. -/
theorem appendKey_other (rt : Runtime) (ch : ConsistentHashing) (server key : String)
    (H0 P : Nat) (hP : P < H0) (hH : H0 ≤ ch.heap.length)
    (hJ : (keysSlice ch server).len < (keysSlice ch server).cap →
      H0 ≤ (keysSlice ch server).ptr) :
    arrayAt (appendKey rt ch server key).heap P = arrayAt ch.heap P ∧
    H0 ≤ (appendKey rt ch server key).heap.length ∧
    ((keysSlice (appendKey rt ch server key) server).len <
        (keysSlice (appendKey rt ch server key) server).cap →
      H0 ≤ (keysSlice (appendKey rt ch server key) server).ptr) := by
  rw [keysSlice_appendKey]
  simp only [appendKey, appendOne]
  by_cases hlt : (keysSlice ch server).len < (keysSlice ch server).cap
  · have h1 := hJ hlt
    simp only [hlt, if_true]
    refine ⟨arrayAt_set_ne _ _ _ _ (by omega), by simpa using hH, fun _ => h1⟩
  · simp only [hlt, if_false]
    refine ⟨arrayAt_append_left _ _ _ (by omega), ?_, fun _ => hH⟩
    simp only [List.length_append, List.length_singleton]
    omega

/-- Removing place `i` in place: what the shorter slice shows, and the size of its
array. -/
theorem deleteAt_elems (heap : List (List String)) (s : Slice) (i : Nat)
    (hp : s.ptr < heap.length) (hi : i < s.len) (hl : s.len ≤ (arrayAt heap s.ptr).length) :
    elems (deleteAt heap s i).1 (deleteAt heap s i).2 =
      (elems heap s).take i ++ (elems heap s).drop (i + 1) ∧
    (arrayAt (deleteAt heap s i).1 s.ptr).length = (arrayAt heap s.ptr).length ∧
    (deleteAt heap s i).1.length = heap.length ∧
    (deleteAt heap s i).2 = { s with len := s.len - 1 } := by
  refine ⟨?_, ?_, ?_, rfl⟩
  · simp only [deleteAt, elems, arrayAt_set_self _ _ _ hp]
    exact take_deleted _ _ _ hi hl
  · simp only [deleteAt, arrayAt_set_self _ _ _ hp]
    exact length_deleted _ _ _ hi hl
  · simp only [deleteAt, List.length_set]

/-- The inner loop when its test holds for every key (a successor was found): from
index `i` on it removes every second element. -/
theorem reassignLoop_odd (rt : Runtime) (newServer : String) (vh nh : Int)
    (hc : nh ≠ 0 ∧ vh < nh) (H0 P : Nat) (hP : P < H0) :
    ∀ (fuel i : Nat) (ch : ConsistentHashing) (nsk : Slice),
      nsk.ptr = P → H0 ≤ ch.heap.length → nsk.len ≤ (arrayAt ch.heap P).length →
      ((keysSlice ch newServer).len < (keysSlice ch newServer).cap →
        H0 ≤ (keysSlice ch newServer).ptr) →
      nsk.len - i ≤ fuel →
      ∃ r, reassignLoop rt newServer vh nh fuel i ch nsk = some r ∧
        elems r.1.heap r.2 =
          (elems ch.heap nsk).take i ++ oddElems ((elems ch.heap nsk).drop i) := by
  have hdone : ∀ (i : Nat) (ch : ConsistentHashing) (nsk : Slice), nsk.len ≤ i →
      elems ch.heap nsk =
        (elems ch.heap nsk).take i ++ oddElems ((elems ch.heap nsk).drop i) := by
    intro i ch nsk hle
    have hlen : (elems ch.heap nsk).length ≤ i := by
      simp only [elems, List.length_take]
      omega
    rw [List.take_of_length_le hlen, List.drop_of_length_le hlen]
    simp [oddElems]
  intro fuel
  induction fuel with
  | zero =>
    intro i ch nsk _ _ _ _ hf
    exact ⟨(ch, nsk), rfl, hdone i ch nsk (by omega)⟩
  | succ n ih =>
    intro i ch nsk hptr hH hl hJ hf
    rw [reassignLoop_succ]
    by_cases hi : i < nsk.len
    · rw [if_pos hi, if_pos (Or.inr hc)]
      obtain ⟨ha1, ha2, ha3⟩ := appendKey_other rt ch newServer (index ch.heap nsk i) H0 P hP hH hJ
      have hp1 : nsk.ptr < (appendKey rt ch newServer (index ch.heap nsk i)).heap.length := by
        omega
      have hl1 : nsk.len ≤
          (arrayAt (appendKey rt ch newServer (index ch.heap nsk i)).heap nsk.ptr).length := by
        rw [hptr, ha1]; exact hl
      obtain ⟨hd1, hd2, hd3, hd4⟩ := deleteAt_elems _ nsk i hp1 hi hl1
      obtain ⟨r, hr, hre⟩ := ih (i + 1)
        { appendKey rt ch newServer (index ch.heap nsk i) with
          heap := (deleteAt (appendKey rt ch newServer (index ch.heap nsk i)).heap nsk i).1 }
        (deleteAt (appendKey rt ch newServer (index ch.heap nsk i)).heap nsk i).2
        (by rw [hd4]; exact hptr)
        (by show H0 ≤ (deleteAt _ nsk i).1.length; rw [hd3]; exact ha2)
        (by
          show (deleteAt _ nsk i).2.len ≤ (arrayAt (deleteAt _ nsk i).1 P).length
          rw [← hptr, hd2, hd4, hptr, ha1]
          show nsk.len - 1 ≤ _
          omega)
        ha3
        (by rw [hd4]; show nsk.len - 1 - (i + 1) ≤ n; omega)
      refine ⟨r, hr, ?_⟩
      rw [hre]
      have he : elems (appendKey rt ch newServer (index ch.heap nsk i)).heap nsk =
          elems ch.heap nsk := by
        simp only [elems, hptr, ha1]
      have hd1b : elems (deleteAt (appendKey rt ch newServer (index ch.heap nsk i)).heap nsk i).1
          (deleteAt (appendKey rt ch newServer (index ch.heap nsk i)).heap nsk i).2 =
          (elems ch.heap nsk).take i ++ (elems ch.heap nsk).drop (i + 1) := by
        rw [hd1, he]
      show (elems (deleteAt _ nsk i).1 (deleteAt _ nsk i).2).take (i + 1) ++
          oddElems ((elems (deleteAt _ nsk i).1 (deleteAt _ nsk i).2).drop (i + 1)) = _
      rw [hd1b]
      apply oddElems_skip
      simp only [elems, List.length_take, hptr]
      omega
    · rw [if_neg hi]
      exact ⟨(ch, nsk), rfl, hdone i ch nsk (by omega)⟩

theorem mem_keys_mapSet (m : List (Int × String)) (p q : Int) (v : String) :
    q ∈ (mapSet m p v).map Prod.fst ↔ q = p ∨ q ∈ m.map Prod.fst := by
  rw [mem_keys_iff, mem_keys_iff]
  simp only [mapGet?_mapSet]
  by_cases hpq : p = q
  · simp [hpq]
  · have hqp : ¬ q = p := fun e => hpq e.symm
    simp [hpq, hqp]

theorem sliceOk_keysSlice (ch : ConsistentHashing) (hwf : wellFormed ch) (server : String) :
    sliceOk ch.heap (keysSlice ch server) := by
  unfold keysSlice
  cases hg : mapGet? ch.serverToKeys server with
  | none => exact ⟨Nat.le_refl _, fun h => absurd rfl h⟩
  | some sl => exact hwf _ (mapGet?_mem _ _ _ hg)

/-- What a well-formed state says about the slice recorded for a server. -/
theorem wellFormed_keysSlice (ch : ConsistentHashing) (hwf : wellFormed ch) (server : String) :
    (keysSlice ch server).len = 0 ∨
      ((keysSlice ch server).ptr < ch.heap.length ∧
        (keysSlice ch server).len ≤ (arrayAt ch.heap (keysSlice ch server).ptr).length) := by
  obtain ⟨h1, h2⟩ := sliceOk_keysSlice ch hwf server
  by_cases hc : (keysSlice ch server).cap = 0
  · exact Or.inl (by omega)
  · obtain ⟨h3, h4⟩ := h2 hc
    exact Or.inr ⟨h3, by omega⟩

/-- Slices of the store stay slices of the store when the store only grows and its
arrays keep their sizes. -/
theorem sliceOk_mono (heap heap1 : List (List String)) (s : Slice)
    (hlen : heap.length ≤ heap1.length)
    (harr : ∀ p, p < heap.length → (arrayAt heap1 p).length = (arrayAt heap p).length)
    (h : sliceOk heap s) : sliceOk heap1 s := by
  refine ⟨h.1, fun hc => ?_⟩
  obtain ⟨h1, h2⟩ := h.2 hc
  exact ⟨by omega, by rw [harr _ h1]; exact h2⟩

theorem appendOne_ok (rt : Runtime) (heap : List (List String)) (s : Slice) (x : String)
    (h : sliceOk heap s) :
    heap.length ≤ (appendOne rt heap s x).1.length ∧
    (∀ p, p < heap.length →
      (arrayAt (appendOne rt heap s x).1 p).length = (arrayAt heap p).length) ∧
    sliceOk (appendOne rt heap s x).1 (appendOne rt heap s x).2 := by
  unfold appendOne
  by_cases hlt : s.len < s.cap
  · obtain ⟨h1, h2⟩ := h.2 (by omega)
    simp only [hlt, if_true]
    have harr : ∀ p, p < heap.length →
        (arrayAt (heap.set s.ptr ((arrayAt heap s.ptr).set s.len x)) p).length =
          (arrayAt heap p).length := by
      intro p _
      by_cases hp : s.ptr = p
      · subst hp
        rw [arrayAt_set_self _ _ _ h1, List.length_set]
      · rw [arrayAt_set_ne _ _ _ _ hp]
    refine ⟨by simp, harr, ?_, ?_⟩
    · show s.len + 1 ≤ s.cap
      omega
    · intro _
      refine ⟨by simpa using h1, ?_⟩
      show (arrayAt _ s.ptr).length = s.cap
      rw [harr _ h1, h2]
  · simp only [hlt, if_false]
    have hel : (elems heap s).length = s.len := by
      simp only [elems, List.length_take]
      by_cases hc : s.cap = 0
      · have := h.1
        omega
      · have := (h.2 hc).2
        have := h.1
        omega
    refine ⟨by simp, fun p hp => by rw [arrayAt_append_left _ _ _ hp], ?_, ?_⟩
    · show s.len + 1 ≤ max (s.len + 1) (rt.growCap s.cap)
      omega
    · intro _
      refine ⟨by simp, ?_⟩
      show (arrayAt (heap ++ _) heap.length).length = max (s.len + 1) (rt.growCap s.cap)
      simp only [arrayAt, List.getD_eq_getElem?_getD, List.getElem?_concat_length,
        Option.getD_some, List.length_append, List.length_singleton, List.length_replicate,
        hel]
      omega

theorem deleteAt_ok (heap : List (List String)) (s : Slice) (i : Nat)
    (h : sliceOk heap s) (hi : i < s.len) :
    heap.length ≤ (deleteAt heap s i).1.length ∧
    (∀ p, p < heap.length →
      (arrayAt (deleteAt heap s i).1 p).length = (arrayAt heap p).length) ∧
    sliceOk (deleteAt heap s i).1 (deleteAt heap s i).2 := by
  have hle := h.1
  obtain ⟨h1, h2⟩ := h.2 (by omega)
  obtain ⟨_, hd2, hd3, hd4⟩ := deleteAt_elems heap s i h1 hi (by omega)
  have harr : ∀ p, p < heap.length →
      (arrayAt (deleteAt heap s i).1 p).length = (arrayAt heap p).length := by
    intro p _
    by_cases hp : s.ptr = p
    · subst hp
      exact hd2
    · simp only [deleteAt]
      rw [arrayAt_set_ne _ _ _ _ hp]
  refine ⟨by omega, harr, ?_, ?_⟩
  · rw [hd4]
    show s.len - 1 ≤ s.cap
    omega
  · rw [hd4]
    intro _
    exact ⟨by show s.ptr < _; omega, by show (arrayAt _ s.ptr).length = s.cap; rw [hd2, h2]⟩

theorem mem_mapSet {κ ν : Type} [DecidableEq κ] (m : List (κ × ν)) (k : κ) (v : ν)
    (e : κ × ν) (h : e ∈ mapSet m k v) : e = (k, v) ∨ e ∈ m := by
  simp only [mapSet, mapDelete, List.mem_cons, List.mem_filter] at h
  rcases h with h | h
  · exact Or.inl h
  · exact Or.inr h.1

/-- Recording a slice of the store keeps the state well formed. -/
theorem wellFormed_mapSet (ch : ConsistentHashing) (heap : List (List String))
    (server : String) (sl : Slice)
    (hlen : ch.heap.length ≤ heap.length)
    (harr : ∀ p, p < ch.heap.length → (arrayAt heap p).length = (arrayAt ch.heap p).length)
    (hwf : wellFormed ch) (hsl : sliceOk heap sl) :
    wellFormed { ch with serverToKeys := mapSet ch.serverToKeys server sl, heap := heap } := by
  intro e he
  rcases mem_mapSet _ _ _ _ he with h | h
  · rw [h]
    exact hsl
  · exact sliceOk_mono _ _ _ hlen harr (hwf e h)

theorem appendKey_wellFormed (rt : Runtime) (ch : ConsistentHashing) (server key : String)
    (hwf : wellFormed ch) :
    wellFormed (appendKey rt ch server key) ∧
    ch.heap.length ≤ (appendKey rt ch server key).heap.length ∧
    (∀ p, p < ch.heap.length →
      (arrayAt (appendKey rt ch server key).heap p).length = (arrayAt ch.heap p).length) := by
  obtain ⟨h1, h2, h3⟩ := appendOne_ok rt ch.heap (keysSlice ch server) key
    (sliceOk_keysSlice ch hwf server)
  exact ⟨wellFormed_mapSet ch _ server _ h1 h2 hwf h3, h1, h2⟩

/-- The inner loop keeps the state well formed and its slice a slice of the store. -/
theorem reassignLoop_wellFormed (rt : Runtime) (newServer : String) (vh nh : Int) :
    ∀ (fuel i : Nat) (ch : ConsistentHashing) (nsk : Slice) (r : ConsistentHashing × Slice),
      wellFormed ch → sliceOk ch.heap nsk →
      reassignLoop rt newServer vh nh fuel i ch nsk = some r →
      wellFormed r.1 ∧ sliceOk r.1.heap r.2 := by
  intro fuel
  induction fuel with
  | zero =>
    intro i ch nsk r hwf hok hr
    cases hr
    exact ⟨hwf, hok⟩
  | succ n ih =>
    intro i ch nsk r hwf hok hr
    rw [reassignLoop_succ] at hr
    split_ifs at hr with hi hc
    · obtain ⟨ha1, ha2, ha3⟩ := appendKey_wellFormed rt ch newServer (index ch.heap nsk i) hwf
      have hok1 := sliceOk_mono _ _ _ ha2 ha3 hok
      obtain ⟨hd1, hd2, hd3⟩ := deleteAt_ok _ nsk i hok1 hi
      refine ih (i + 1) _ _ r ?_ hd3 hr
      intro e he
      exact sliceOk_mono _ _ _ hd1 hd2 (ha1 e he)
    · exact ih (i + 1) ch nsk r hwf hok hr
    · cases hr
      exact ⟨hwf, hok⟩

theorem reassignVirtualNode_wellFormed (rt : Runtime) (newServer : String)
    (ch ch1 : ConsistentHashing) (i : Nat) (hwf : wellFormed ch)
    (h : reassignVirtualNode rt newServer ch i = some ch1) : wellFormed ch1 := by
  unfold reassignVirtualNode at h
  simp only [] at h
  split at h
  · cases h
  · split_ifs at h with hs
    · split at h
      · cases h
      · rename_i r hr
        cases h
        obtain ⟨h1, h2⟩ := reassignLoop_wellFormed rt newServer _ _ _ _ _ _ r hwf
          (sliceOk_keysSlice ch hwf _) hr
        exact wellFormed_mapSet r.1 r.1.heap newServer r.2 (Nat.le_refl _) (fun _ _ => rfl)
          h1 h2
    · cases h
      exact hwf

/-- Every reachable state is well formed. -/
theorem reachable_wellFormed (rt : Runtime) (ch : ConsistentHashing)
    (hr : Reachable rt ch) : wellFormed ch := by
  induction hr with
  | init vn =>
    intro e he
    simp [NewConsistentHashing] at he
  | @addServer c c1 server _ hadd ih =>
    unfold AddServer reassignKeysAfterServerAddition at hadd
    refine foldlM_keeps (reassignVirtualNode rt server) wellFormed
      (fun b a b1 hb hb1 => reassignVirtualNode_wellFormed rt server b b1 a hb hb1)
      _ _ c1 ?_ hadd
    exact wellFormed_mapSet
      { c with
        hashRing := insertVirtualNodes rt c.hashRing server c.virtualNodes.toNat }
      c.heap server Slice.empty (Nat.le_refl _) (fun _ _ => rfl) ih
      ⟨Nat.le_refl _, fun h => absurd rfl h⟩
  | @assignKey c c1 key _ hassign ih =>
    unfold AssignKey at hassign
    split at hassign
    · cases hassign
      exact (appendKey_wellFormed rt c _ key ih).1
    · cases hassign
  | @removeServer c c1 server _ hrem ih =>
    unfold RemoveServer reassignKeysAfterServerRemoval at hrem
    simp only [] at hrem
    split_ifs at hrem
    · cases hrem
      exact ih
    · refine foldlM_keeps (reassignRemovedKey rt _) wellFormed ?_ _ _ c1 ?_ hrem
      · intro b a b1 hb hb1
        unfold reassignRemovedKey at hb1
        simp only [] at hb1
        split at hb1
        · cases hb1
          exact (appendKey_wellFormed rt b _ _ hb).1
        · cases hb1
      · exact ih

theorem mainAssigned_eq : mainAssigned = some mainAssignedState := by decide

theorem mainAssignedState_reachable : Reachable goRuntime mainAssignedState :=
  reachable_runCalls goRuntime mainCalls (NewConsistentHashing 3) mainAssignedState
    (Reachable.init 3) (by decide)

theorem server4AddedState_reachable : Reachable goRuntime server4AddedState :=
  Reachable.addServer "Server4" mainAssignedState_reachable (by decide)

theorem oneNodeState_reachable : Reachable goRuntime oneNodeState :=
  reachable_runCalls goRuntime oneNodeCalls (NewConsistentHashing 1) oneNodeState
    (Reachable.init 1) (by decide)

/-! ## The claims -/

/-- C1: for every hash function (every `Runtime`), every state with a non-empty ring and
every key, `GetServer` returns the owner of a ring position `p` such that either `p` is
the smallest ring position that is `>= hash(key)`, or no ring position is `>= hash(key)`
and `p` is the smallest ring position overall. -/
theorem C1_getServer_clockwise_owner (rt : Runtime) (ch : ConsistentHashing) (key : String)
    (hne : ch.hashRing ≠ []) :
    ∃ p owner, GetServer rt ch key = some owner ∧ mapGet? ch.hashRing p = some owner ∧
      ((hash rt key ≤ p ∧ ∀ q ∈ ch.hashRing.map Prod.fst, hash rt key ≤ q → p ≤ q) ∨
       ((∀ q ∈ ch.hashRing.map Prod.fst, q < hash rt key) ∧
         ∀ q ∈ ch.hashRing.map Prod.fst, p ≤ q)) := by
  have hs := sortedKeys_sorted ch.hashRing
  cases hf : (sortedKeys ch.hashRing).find? (fun h => decide (h ≥ hash rt key)) with
  | some a =>
    obtain ⟨h1, h2, h3⟩ := find?_sorted_least _ _ hs a hf
    refine ⟨a, ringAt ch.hashRing a, by simp only [GetServer, hf],
      ringAt_of_mem _ _ ((mem_sortedKeys _ _).1 h1), Or.inl ⟨by simpa using h2, ?_⟩⟩
    intro q hq hle
    exact h3 q ((mem_sortedKeys _ _).2 hq) (by simpa using hle)
  | none =>
    cases hh : (sortedKeys ch.hashRing).head? with
    | none =>
      exact absurd (List.head?_eq_none_iff.1 hh) (sortedKeys_ne_nil _ hne)
    | some a =>
      obtain ⟨h1, h2⟩ := head?_sorted_least _ hs a hh
      refine ⟨a, ringAt ch.hashRing a, by simp only [GetServer, hf, hh],
        ringAt_of_mem _ _ ((mem_sortedKeys _ _).1 h1), Or.inr ⟨?_, ?_⟩⟩
      · intro q hq
        have := List.find?_eq_none.1 hf q ((mem_sortedKeys _ _).2 hq)
        simpa using this
      · intro q hq
        exact h2 q ((mem_sortedKeys _ _).2 hq)

/-- C1 at the state of the driver at line 21 and the key `Key3`, whose hash 8454362 lies
between ring positions. -/
theorem C1_getServer_clockwise_owner_witness :
    mainAssignedState.hashRing ≠ [] ∧
    ∃ p owner, GetServer goRuntime mainAssignedState "Key3" = some owner ∧
      mapGet? mainAssignedState.hashRing p = some owner ∧
      ((hash goRuntime "Key3" ≤ p ∧
          ∀ q ∈ mainAssignedState.hashRing.map Prod.fst, hash goRuntime "Key3" ≤ q → p ≤ q) ∨
       ((∀ q ∈ mainAssignedState.hashRing.map Prod.fst, q < hash goRuntime "Key3") ∧
         ∀ q ∈ mainAssignedState.hashRing.map Prod.fst, p ≤ q)) :=
  ⟨by decide, C1_getServer_clockwise_owner goRuntime mainAssignedState "Key3" (by decide)⟩

/-- C2 (AddServer(s) of an unregistered s loses and duplicates no key), evaluated on the
driver. `mainAssignedState` is the state of `main.go` at
line 21 (`virtualNodes = 3`, `Server4` not registered, `Key1` to `Key5` recorded once
each); `AddServer("Server4")` returns `server4AddedState`, in which six keys are
recorded: `Key5` is gone and `Key2` is recorded three times, so the keys after the call
are not a rearrangement of the keys before it. -/
theorem C2_addServer_changes_recorded_keys :
    mainAssigned = some mainAssignedState ∧
    (1 : Int) ≤ mainAssignedState.virtualNodes ∧
    ¬ registered mainAssignedState "Server4" ∧
    AddServer goRuntime mainAssignedState "Server4" = some server4AddedState ∧
    recordedKeys mainAssignedState = ["Key5", "Key3", "Key4", "Key1", "Key2"] ∧
    recordedKeys server4AddedState = ["Key2", "Key3", "Key4", "Key1", "Key2", "Key2"] ∧
    ¬ (recordedKeys server4AddedState).Perm (recordedKeys mainAssignedState) := by
  decide

/-- C3 (after AddServer(s) a key is listed under s exactly when GetServer returns s for
it, and the other keys stay where they were), evaluated on the driver. At line 21 every
recorded key is listed under the server GetServer returns for it. After
`AddServer("Server4")`: `Key2` is listed under `Server4` although GetServer returns
`Server1` for it; GetServer returns `Server4` for `Key3`, which is not listed under
`Server4`; and `Key5`, which GetServer still sends to `Server3`, is no longer listed
under `Server3`. -/
theorem C3_addServer_misplaces_keys :
    (recordedKeys mainAssignedState).map
        (fun k => (k, GetServer goRuntime mainAssignedState k)) =
      [("Key5", some "Server3"), ("Key3", some "Server2"), ("Key4", some "Server2"),
        ("Key1", some "Server1"), ("Key2", some "Server1")] ∧
    keysOf mainAssignedState "Server1" = ["Key1", "Key2"] ∧
    keysOf mainAssignedState "Server2" = ["Key3", "Key4"] ∧
    keysOf mainAssignedState "Server3" = ["Key5"] ∧
    ¬ registered mainAssignedState "Server4" ∧
    AddServer goRuntime mainAssignedState "Server4" = some server4AddedState ∧
    keysOf server4AddedState "Server4" = ["Key2"] ∧
    GetServer goRuntime server4AddedState "Key2" = some "Server1" ∧
    GetServer goRuntime server4AddedState "Key3" = some "Server4" ∧
    GetServer goRuntime server4AddedState "Key5" = some "Server3" ∧
    keysOf server4AddedState "Server3" = ["Key3"] ∧
    keysOf server4AddedState "Server1" = ["Key2", "Key2"] ∧
    keysOf server4AddedState "Server2" = ["Key4", "Key1"] := by
  decide

/-- C4 (RemoveServer(s) re-homes the keys of s and only extends the sequences of the
other servers), evaluated on the driver. The state after line 29 is reachable,
`Server2` owns ring positions and the ring stays non-empty, but
`RemoveServer("Server2")` turns the sequence of `Server1` from `Key2, Key2` into
`Key2, Key4, Key1`: `Key4` was appended to `Server4`, whose slice shares the backing
array of `Server1`, so the old contents of `Server1` are not kept as a prefix. -/
theorem C4_removeServer_rewrites_other_sequence :
    Reachable goRuntime server4AddedState ∧
    "Server2" ∈ server4AddedState.hashRing.map Prod.snd ∧
    RemoveServer goRuntime server4AddedState "Server2" = some server2RemovedState ∧
    server2RemovedState.hashRing ≠ [] ∧
    keysOf server4AddedState "Server2" = ["Key4", "Key1"] ∧
    GetServer goRuntime server2RemovedState "Key4" = some "Server4" ∧
    GetServer goRuntime server2RemovedState "Key1" = some "Server1" ∧
    keysOf server4AddedState "Server1" = ["Key2", "Key2"] ∧
    keysOf server2RemovedState "Server1" = ["Key2", "Key4", "Key1"] ∧
    ¬ (keysOf server4AddedState "Server1" <+: keysOf server2RemovedState "Server1") :=
  ⟨server4AddedState_reachable, by decide⟩

/-- C5: in every state reachable from `NewConsistentHashing` by calls of `AddServer`,
`AssignKey` and `RemoveServer`, every ring entry `p -> t` has
`p = hash(t + "_VN_" + i)` for some `0 <= i < virtualNodes`; consequently, whenever
`RemoveServer(s)` returns, no ring position is owned by `s` afterwards and, if the ring is
then non-empty, `GetServer` returns a server different from `s` for every key. -/
theorem C5_ring_entries_are_virtual_nodes (rt : Runtime) (ch : ConsistentHashing)
    (hr : Reachable rt ch) :
    (∀ p t, mapGet? ch.hashRing p = some t →
      ∃ i : Nat, (i : Int) < ch.virtualNodes ∧ p = hash rt (virtualNodeName t i)) ∧
    (∀ s ch1, RemoveServer rt ch s = some ch1 →
      (∀ p, mapGet? ch1.hashRing p ≠ some s) ∧
      (ch1.hashRing ≠ [] → ∀ key, ∃ t, GetServer rt ch1 key = some t ∧ t ≠ s)) := by
  refine ⟨reachable_ring_entries rt ch hr, ?_⟩
  intro s ch1 hrem
  have hno : ∀ p, mapGet? ch1.hashRing p ≠ some s := by
    intro p hp
    obtain ⟨_, hsub⟩ := removeServer_ring rt ch ch1 s hrem
    obtain ⟨hold, hnot⟩ := hsub p s hp
    obtain ⟨i, hi, hpi⟩ := reachable_ring_entries rt ch hr p s hold
    exact hnot ⟨i, by omega, hpi.symm⟩
  refine ⟨hno, ?_⟩
  intro hne key
  obtain ⟨p, owner, hg, hown⟩ := getServer_owner rt ch1 key hne
  refine ⟨owner, hg, ?_⟩
  intro heq
  exact hno p (heq ▸ hown)

/-- C5 at the state of the driver after line 29: its ring entries are virtual nodes of
their owners, and after `RemoveServer` of any server no position is left to it. -/
theorem C5_ring_entries_are_virtual_nodes_witness :
    Reachable goRuntime server4AddedState ∧
    ((∀ p t, mapGet? server4AddedState.hashRing p = some t →
      ∃ i : Nat, (i : Int) < server4AddedState.virtualNodes ∧
        p = hash goRuntime (virtualNodeName t i)) ∧
    (∀ s ch1, RemoveServer goRuntime server4AddedState s = some ch1 →
      (∀ p, mapGet? ch1.hashRing p ≠ some s) ∧
      (ch1.hashRing ≠ [] → ∀ key, ∃ t, GetServer goRuntime ch1 key = some t ∧ t ≠ s))) :=
  ⟨server4AddedState_reachable,
    C5_ring_entries_are_virtual_nodes goRuntime server4AddedState server4AddedState_reachable⟩

/-- C6 (after RemoveServer(s) the key sequence of s is empty), evaluated on the driver:
after line 37, `RemoveServer("Server2")`, the sequence of `Server2` is still
`Key4, Key1`, and both keys are listed under a second server as well. -/
theorem C6_removeServer_keeps_removed_sequence :
    RemoveServer goRuntime server4AddedState "Server2" = some server2RemovedState ∧
    keysOf server2RemovedState "Server2" = ["Key4", "Key1"] ∧
    "Key4" ∈ keysOf server2RemovedState "Server4" ∧
    "Key1" ∈ keysOf server2RemovedState "Server1" := by
  decide

/-- C7 (RemoveServer(s) deletes only the virtual-node positions of s), evaluated on
`collisionState`: the position 1323774 is `hash("Server1923")`, it is none of the three
virtual-node positions of `Server1923`, and it is owned by `Server1805`;
`RemoveServer("Server1923")` deletes it. -/
theorem C7_removeServer_deletes_bare_name_position :
    runCalls goRuntime (NewConsistentHashing 3) collisionCalls = some collisionState ∧
    hash goRuntime "Server1923" = 1323774 ∧
    (List.range 3).map (fun i => hash goRuntime (virtualNodeName "Server1923" i)) =
      [5149422, 9409125, 4441596] ∧
    mapGet? collisionState.hashRing 1323774 = some "Server1805" ∧
    RemoveServer goRuntime collisionState "Server1923" = some collisionRemovedState ∧
    mapGet? collisionRemovedState.hashRing 1323774 = none := by
  decide

/-- C8: for every state and every server `s`, `AddServer(s)` returns, and afterwards
the ring maps each position `hash(s + "_VN_" + i)`, `0 <= i < virtualNodes`, to `s`
(whatever owned that position before), while every ring position that is none of these
is mapped exactly as before the call. -/
theorem C8_addServer_ring_update (rt : Runtime) (ch : ConsistentHashing) (s : String) :
    ∃ ch1, AddServer rt ch s = some ch1 ∧
      (∀ i : Nat, (i : Int) < ch.virtualNodes →
        mapGet? ch1.hashRing (hash rt (virtualNodeName s i)) = some s) ∧
      (∀ p, (∀ i : Nat, (i : Int) < ch.virtualNodes → p ≠ hash rt (virtualNodeName s i)) →
        mapGet? ch1.hashRing p = mapGet? ch.hashRing p) := by
  obtain ⟨ch1, h1, hring, _⟩ := addServer_ring rt ch s
  refine ⟨ch1, h1, ?_, ?_⟩
  · intro i hi
    rw [hring, mapGet?_insertVirtualNodes]
    have hex : ∃ j, j < ch.virtualNodes.toNat ∧
        hash rt (virtualNodeName s j) = hash rt (virtualNodeName s i) := ⟨i, by omega, rfl⟩
    rw [if_pos hex]
  · intro p hp
    rw [hring, mapGet?_insertVirtualNodes]
    have hex : ¬ ∃ j, j < ch.virtualNodes.toNat ∧ hash rt (virtualNodeName s j) = p := by
      rintro ⟨j, hj, hjp⟩
      exact hp j (by omega) hjp.symm
    rw [if_neg hex]

/-- C9 (AssignKey(k) appends k to the sequence of GetServer(k) and leaves every other
sequence unchanged), evaluated on the state of the driver after line 29: the ring is not
empty, GetServer returns `Server4` for `Key3`, and `AssignKey("Key3")` changes the
sequence of `Server1` from `Key2, Key2` to `Key2, Key3`. -/
theorem C9_assignKey_rewrites_other_sequence :
    Reachable goRuntime server4AddedState ∧
    server4AddedState.hashRing ≠ [] ∧
    GetServer goRuntime server4AddedState "Key3" = some "Server4" ∧
    AssignKey goRuntime server4AddedState "Key3" = some key3AssignedState ∧
    keysOf server4AddedState "Server4" = ["Key2"] ∧
    keysOf key3AssignedState "Server4" = ["Key2", "Key3"] ∧
    keysOf server4AddedState "Server1" = ["Key2", "Key2"] ∧
    keysOf key3AssignedState "Server1" = ["Key2", "Key3"] :=
  ⟨server4AddedState_reachable, by decide⟩

/-- C10 (AddServer(s) followed at once by RemoveServer(s) leaves s without ring
positions and with an empty key sequence), evaluated on the driver: from the reachable
state of line 21, where `Server4` is not registered, `AddServer("Server4")` and then
`RemoveServer("Server4")` leave no ring position to `Server4` but leave `Key2` in its
key sequence. -/
theorem C10_add_then_remove_leaves_keys :
    Reachable goRuntime mainAssignedState ∧
    ¬ registered mainAssignedState "Server4" ∧
    AddServer goRuntime mainAssignedState "Server4" = some server4AddedState ∧
    RemoveServer goRuntime server4AddedState "Server4" = some server4RemovedState ∧
    "Server4" ∉ server4RemovedState.hashRing.map Prod.snd ∧
    keysOf server4RemovedState "Server4" = ["Key2"] :=
  ⟨mainAssignedState_reachable, by decide⟩

/-- C11: `GetServer` fails if and only if the ring is empty: on an empty ring it fails for
every key (the read `keys[0]` of line 145 panics, which is the failure the specification
calls `NoServerAvailable`), and on every non-empty ring it returns a server. -/
theorem C11_getServer_fails_iff_ring_empty (rt : Runtime) (ch : ConsistentHashing)
    (key : String) :
    (GetServer rt ch key = none ↔ ch.hashRing = []) ∧
    (ch.hashRing ≠ [] → ∃ server, GetServer rt ch key = some server) := by
  have hsome : ch.hashRing ≠ [] → ∃ server, GetServer rt ch key = some server := by
    intro hne
    obtain ⟨_, owner, hg, _⟩ := getServer_owner rt ch key hne
    exact ⟨owner, hg⟩
  refine ⟨⟨?_, getServer_empty rt ch key⟩, hsome⟩
  intro hnone
  by_contra hne
  obtain ⟨server, hg⟩ := hsome hne
  rw [hnone] at hg
  cases hg

/-- C12: when `RemoveServer(s)` leaves the ring empty (the ring without the virtual nodes
of `s` is empty): if the key sequence of `s` is empty (`len(ch.serverToKeys[s]) == 0`)
the call returns and changes no key sequence; if it is not empty the call fails (the
panic of `GetServer` on the empty ring, the failure the specification calls
`NoServerAvailable`). -/
theorem C12_removeServer_leaving_empty_ring (rt : Runtime) (ch : ConsistentHashing)
    (s : String)
    (hempty : deleteVirtualNodes rt ch.hashRing s ch.virtualNodes.toNat = []) :
    ((keysSlice ch s).len = 0 →
      ∃ ch1, RemoveServer rt ch s = some ch1 ∧ ch1.hashRing = [] ∧
        ch1.serverToKeys = ch.serverToKeys ∧ ch1.heap = ch.heap ∧
        ∀ t, keysOf ch1 t = keysOf ch t) ∧
    ((keysSlice ch s).len ≠ 0 → RemoveServer rt ch s = none) := by
  constructor
  · intro hlen
    have hlen2 : (keysSlice
        { ch with hashRing := deleteVirtualNodes rt ch.hashRing s ch.virtualNodes.toNat }
        s).len = 0 := hlen
    refine ⟨{ ch with
      hashRing := deleteVirtualNodes rt ch.hashRing s ch.virtualNodes.toNat }, ?_, hempty,
      rfl, rfl, fun t => rfl⟩
    unfold RemoveServer reassignKeysAfterServerRemoval
    simp only [hlen2, if_true]
  · intro hlen
    have hlen2 : ¬ (keysSlice
        { ch with hashRing := deleteVirtualNodes rt ch.hashRing s ch.virtualNodes.toNat }
        s).len = 0 := hlen
    unfold RemoveServer reassignKeysAfterServerRemoval
    simp only [hlen2, if_false]
    obtain ⟨n, hn⟩ := Nat.exists_eq_succ_of_ne_zero hlen2
    rw [hn, List.range_succ_eq_map, List.foldlM_cons]
    have hnone : reassignRemovedKey rt
        (keysSlice
          { ch with hashRing := deleteVirtualNodes rt ch.hashRing s ch.virtualNodes.toNat }
          s)
        { ch with
          hashRing := mapDelete
            (deleteVirtualNodes rt ch.hashRing s ch.virtualNodes.toNat) (hash rt s) }
        0 = none := by
      have hg := getServer_empty rt
        { ch with
          hashRing := mapDelete
            (deleteVirtualNodes rt ch.hashRing s ch.virtualNodes.toNat) (hash rt s) }
        (index ch.heap (keysSlice ch s) 0) (by rw [hempty]; rfl)
      simp only [reassignRemovedKey]
      rw [show (keysSlice
          { ch with hashRing := deleteVirtualNodes rt ch.hashRing s ch.virtualNodes.toNat }
          s) = keysSlice ch s from rfl, hg]
    rw [hnone]
    rfl

/-- C12 at `lastServerState`: removing the only server, which has one recorded key. -/
theorem C12_removeServer_leaving_empty_ring_witness :
    deleteVirtualNodes goRuntime lastServerState.hashRing "Server1"
      lastServerState.virtualNodes.toNat = [] ∧
    (((keysSlice lastServerState "Server1").len = 0 →
      ∃ ch1, RemoveServer goRuntime lastServerState "Server1" = some ch1 ∧
        ch1.hashRing = [] ∧
        ch1.serverToKeys = lastServerState.serverToKeys ∧ ch1.heap = lastServerState.heap ∧
        ∀ t, keysOf ch1 t = keysOf lastServerState t) ∧
    ((keysSlice lastServerState "Server1").len ≠ 0 →
      RemoveServer goRuntime lastServerState "Server1" = none)) :=
  ⟨by decide, C12_removeServer_leaving_empty_ring goRuntime lastServerState "Server1"
    (by decide)⟩

/-- C13 as stated (`AddServer(s)` of a registered `s` fails with `DuplicateServer` and
changes nothing) is false on the driver: at line 21 `Server1` is registered and holds
`Key1, Key2`; a second `AddServer("Server1")` returns, and afterwards the key sequence
of `Server1` is empty and that of `Server2` has changed. -/
theorem C13_addServer_accepts_registered_server :
    registered mainAssignedState "Server1" ∧
    keysOf mainAssignedState "Server1" = ["Key1", "Key2"] ∧
    keysOf mainAssignedState "Server2" = ["Key3", "Key4"] ∧
    AddServer goRuntime mainAssignedState "Server1" = some server1ReaddedState ∧
    keysOf server1ReaddedState "Server1" = [] ∧
    keysOf server1ReaddedState "Server2" = ["Key4", "Key5"] := by
  decide

/-- C13, amended: for every state and every server `s` that is already registered,
`AddServer(s)` does not fail (there is no duplicate check). It returns, keeps
`virtualNodes`, binds each position `hash(s + "_VN_" + i)`, `0 <= i < virtualNodes`, to
`s`, leaves every other ring position as it was, and discards the key sequence recorded
under `s` before its reassignment pass: the result is the one `AddServer(s)` gives on
the state without the entry of `s` in `serverToKeys`. -/
theorem C13_addServer_registered_returns (rt : Runtime) (ch : ConsistentHashing)
    (s : String) (hreg : registered ch s) :
    ∃ ch1, AddServer rt ch s = some ch1 ∧
      ch1.virtualNodes = ch.virtualNodes ∧
      (∀ i : Nat, (i : Int) < ch.virtualNodes →
        mapGet? ch1.hashRing (hash rt (virtualNodeName s i)) = some s) ∧
      (∀ p, (∀ i : Nat, (i : Int) < ch.virtualNodes → p ≠ hash rt (virtualNodeName s i)) →
        mapGet? ch1.hashRing p = mapGet? ch.hashRing p) ∧
      AddServer rt ch s =
        AddServer rt { ch with serverToKeys := mapDelete ch.serverToKeys s } s := by
  have _ := hreg
  obtain ⟨ch1, h1, hring, hvn⟩ := addServer_ring rt ch s
  refine ⟨ch1, h1, hvn, ?_, ?_, ?_⟩
  · intro i hi
    rw [hring, mapGet?_insertVirtualNodes]
    have hex : ∃ j, j < ch.virtualNodes.toNat ∧
        hash rt (virtualNodeName s j) = hash rt (virtualNodeName s i) := ⟨i, by omega, rfl⟩
    rw [if_pos hex]
  · intro p hp
    rw [hring, mapGet?_insertVirtualNodes]
    have hex : ¬ ∃ j, j < ch.virtualNodes.toNat ∧ hash rt (virtualNodeName s j) = p := by
      rintro ⟨j, hj, hjp⟩
      exact hp j (by omega) hjp.symm
    rw [if_neg hex]
  · simp only [AddServer, mapSet_mapDelete]

/-- C13, amended, at the driver: the second `AddServer("Server1")` at line 21. -/
theorem C13_addServer_registered_returns_witness :
    registered mainAssignedState "Server1" ∧
    ∃ ch1, AddServer goRuntime mainAssignedState "Server1" = some ch1 ∧
      ch1.virtualNodes = mainAssignedState.virtualNodes ∧
      (∀ i : Nat, (i : Int) < mainAssignedState.virtualNodes →
        mapGet? ch1.hashRing (hash goRuntime (virtualNodeName "Server1" i)) =
          some "Server1") ∧
      (∀ p, (∀ i : Nat, (i : Int) < mainAssignedState.virtualNodes →
          p ≠ hash goRuntime (virtualNodeName "Server1" i)) →
        mapGet? ch1.hashRing p = mapGet? mainAssignedState.hashRing p) ∧
      AddServer goRuntime mainAssignedState "Server1" =
        AddServer goRuntime
          { mainAssignedState with
            serverToKeys := mapDelete mainAssignedState.serverToKeys "Server1" }
          "Server1" :=
  ⟨by decide, C13_addServer_registered_returns goRuntime mainAssignedState "Server1"
    (by decide)⟩

/-- C14: for every 16-byte digest the integer `hash` packs from it, with the `uint8`
shift of `hash[0]<<4`, lies in `[0, 2^24)`; so does the hash of every name, be it a
server name, a virtual-node name or a key. -/
theorem C14_hash_range (rt : Runtime) (digest : Fin 16 → Fin 256) (name : String) :
    (0 ≤ packDigest digest ∧ packDigest digest < 2 ^ 24) ∧
    (0 ≤ hash rt name ∧ hash rt name < 2 ^ 24) :=
  ⟨⟨packDigest_nonneg digest, packDigest_lt digest⟩,
    ⟨hash_nonneg rt name, packDigest_lt (rt.md5Sum name)⟩⟩

/-- C15: if the successor ring position found for every virtual node of the new server
`s` is owned by `s` itself, and in particular if `s` is added to an empty ring,
`AddServer(s)` performs no reassignment: the store of keys is untouched, the key
sequence of every other server is unchanged and the key sequence of `s` is empty. -/
theorem C15_addServer_without_reassignment (rt : Runtime) (ch : ConsistentHashing)
    (s : String)
    (h : ch.hashRing = [] ∨
      ∀ i, i < ch.virtualNodes.toNat → ∀ nh,
        nextServerHashOf
          (sortedKeys (insertVirtualNodes rt ch.hashRing s ch.virtualNodes.toNat))
          (hash rt (virtualNodeName s i)) = some nh →
        ringAt (insertVirtualNodes rt ch.hashRing s ch.virtualNodes.toNat) nh = s) :
    ∃ ch1, AddServer rt ch s = some ch1 ∧ ch1.heap = ch.heap ∧
      ch1.serverToKeys = mapSet ch.serverToKeys s Slice.empty ∧
      keysOf ch1 s = [] ∧ ∀ t, t ≠ s → keysOf ch1 t = keysOf ch t := by
  have hall : ∀ i, i < ch.virtualNodes.toNat → ∀ nh,
      nextServerHashOf
        (sortedKeys (insertVirtualNodes rt ch.hashRing s ch.virtualNodes.toNat))
        (hash rt (virtualNodeName s i)) = some nh →
      ringAt (insertVirtualNodes rt ch.hashRing s ch.virtualNodes.toNat) nh = s := by
    rcases h with h | h
    · intro i _ nh hnh
      rw [h] at hnh ⊢
      exact insertVirtualNodes_nil_owner rt s _ nh
        ((mem_sortedKeys _ _).1 (nextServerHashOf_mem _ _ _ hnh))
    · exact h
  refine ⟨_, addServer_no_reassignment rt ch s hall, rfl, rfl, ?_, ?_⟩
  · simp [keysOf, keysSlice, mapGet?_mapSet, elems, Slice.empty]
  · intro t ht
    have hst : ¬ s = t := fun e => ht e.symm
    simp [keysOf, keysSlice, mapGet?_mapSet, hst]

/-- C15 at the first call of the driver, `AddServer("Server1")` on the empty ring. -/
theorem C15_addServer_without_reassignment_witness :
    ((NewConsistentHashing 3).hashRing = [] ∨
      ∀ i, i < (NewConsistentHashing 3).virtualNodes.toNat → ∀ nh,
        nextServerHashOf
          (sortedKeys (insertVirtualNodes goRuntime (NewConsistentHashing 3).hashRing
            "Server1" (NewConsistentHashing 3).virtualNodes.toNat))
          (hash goRuntime (virtualNodeName "Server1" i)) = some nh →
        ringAt (insertVirtualNodes goRuntime (NewConsistentHashing 3).hashRing "Server1"
          (NewConsistentHashing 3).virtualNodes.toNat) nh = "Server1") ∧
    ∃ ch1, AddServer goRuntime (NewConsistentHashing 3) "Server1" = some ch1 ∧
      ch1.heap = (NewConsistentHashing 3).heap ∧
      ch1.serverToKeys = mapSet (NewConsistentHashing 3).serverToKeys "Server1" Slice.empty ∧
      keysOf ch1 "Server1" = [] ∧
      ∀ t, t ≠ "Server1" → keysOf ch1 t = keysOf (NewConsistentHashing 3) t :=
  ⟨Or.inl rfl,
    C15_addServer_without_reassignment goRuntime (NewConsistentHashing 3) "Server1"
      (Or.inl rfl)⟩

/-- C16: in `reassignKeysAfterServerAddition`, on the ring `AddServer` has produced
(the old ring with the virtual nodes of the new server inserted) and for the position
`p` of every virtual node of the new server, `nextServerHash` is a ring position: the
smallest ring position strictly greater than `p` or, when no ring position is greater
than `p`, the smallest ring position overall; and a position found by the scan is never
`0`, the "not found" marker. -/
theorem C16_nextServerHash_is_successor (rt : Runtime) (ch : ConsistentHashing)
    (s : String) (i : Nat) (hi : i < ch.virtualNodes.toNat) :
    (∃ nh, nextServerHashOf
        (sortedKeys (insertVirtualNodes rt ch.hashRing s ch.virtualNodes.toNat))
        (hash rt (virtualNodeName s i)) = some nh ∧
      nh ∈ (insertVirtualNodes rt ch.hashRing s ch.virtualNodes.toNat).map Prod.fst ∧
      ((hash rt (virtualNodeName s i) < nh ∧
          ∀ q ∈ (insertVirtualNodes rt ch.hashRing s ch.virtualNodes.toNat).map Prod.fst,
            hash rt (virtualNodeName s i) < q → nh ≤ q) ∨
       ((∀ q ∈ (insertVirtualNodes rt ch.hashRing s ch.virtualNodes.toNat).map Prod.fst,
            q ≤ hash rt (virtualNodeName s i)) ∧
          ∀ q ∈ (insertVirtualNodes rt ch.hashRing s ch.virtualNodes.toNat).map Prod.fst,
            nh ≤ q))) ∧
    (∀ h, (sortedKeys (insertVirtualNodes rt ch.hashRing s ch.virtualNodes.toNat)).find?
        (fun h => decide (h > hash rt (virtualNodeName s i))) = some h → h ≠ 0) := by
  have hmem := insertVirtualNodes_mem rt ch.hashRing s ch.virtualNodes.toNat i hi
  have hne : sortedKeys (insertVirtualNodes rt ch.hashRing s ch.virtualNodes.toNat) ≠ [] :=
    List.ne_nil_of_mem ((mem_sortedKeys _ _).2 hmem)
  have hp := hash_nonneg rt (virtualNodeName s i)
  constructor
  · obtain ⟨nh, h1, h2, h3⟩ := nextServerHashOf_spec _ (sortedKeys_sorted _) hne _ hp
    refine ⟨nh, h1, (mem_sortedKeys _ _).1 h2, ?_⟩
    rcases h3 with ⟨ha, hb⟩ | ⟨ha, hb⟩
    · exact Or.inl ⟨ha, fun q hq => hb q ((mem_sortedKeys _ _).2 hq)⟩
    · exact Or.inr ⟨fun q hq => ha q ((mem_sortedKeys _ _).2 hq),
        fun q hq => hb q ((mem_sortedKeys _ _).2 hq)⟩
  · intro h hf h0
    have hgt := List.find?_some hf
    have : hash rt (virtualNodeName s i) < h := by simpa using hgt
    omega

/-- C16 at the driver: the successor search for `Server1_VN_0` on the ring of
`AddServer("Server1")` on the fresh state. -/
theorem C16_nextServerHash_is_successor_witness :
    0 < (NewConsistentHashing 3).virtualNodes.toNat ∧
    ((∃ nh, nextServerHashOf
        (sortedKeys (insertVirtualNodes goRuntime (NewConsistentHashing 3).hashRing "Server1"
          (NewConsistentHashing 3).virtualNodes.toNat))
        (hash goRuntime (virtualNodeName "Server1" 0)) = some nh ∧
      nh ∈ (insertVirtualNodes goRuntime (NewConsistentHashing 3).hashRing "Server1"
          (NewConsistentHashing 3).virtualNodes.toNat).map Prod.fst ∧
      ((hash goRuntime (virtualNodeName "Server1" 0) < nh ∧
          ∀ q ∈ (insertVirtualNodes goRuntime (NewConsistentHashing 3).hashRing "Server1"
              (NewConsistentHashing 3).virtualNodes.toNat).map Prod.fst,
            hash goRuntime (virtualNodeName "Server1" 0) < q → nh ≤ q) ∨
       ((∀ q ∈ (insertVirtualNodes goRuntime (NewConsistentHashing 3).hashRing "Server1"
              (NewConsistentHashing 3).virtualNodes.toNat).map Prod.fst,
            q ≤ hash goRuntime (virtualNodeName "Server1" 0)) ∧
          ∀ q ∈ (insertVirtualNodes goRuntime (NewConsistentHashing 3).hashRing "Server1"
              (NewConsistentHashing 3).virtualNodes.toNat).map Prod.fst,
            nh ≤ q))) ∧
    (∀ h, (sortedKeys (insertVirtualNodes goRuntime (NewConsistentHashing 3).hashRing
        "Server1" (NewConsistentHashing 3).virtualNodes.toNat)).find?
        (fun h => decide (h > hash goRuntime (virtualNodeName "Server1" 0))) = some h →
      h ≠ 0)) :=
  ⟨by decide,
    C16_nextServerHash_is_successor goRuntime (NewConsistentHashing 3) "Server1" 0
      (by decide)⟩

/-- C17 (`hash` uses the first four digest bytes and packs digests that differ there to
different integers), evaluated on two MD5 digests: those of `Server1923` and of
`Server1805_VN_0` differ in bytes 0 and 3, and both are packed to 1323774, because
`hash[0]<<4` keeps only the low half of byte 0 and lays it over the high half of
byte 3. -/
theorem C17_packDigest_overlays_bytes :
    (List.range 4).map (fun i => (goRuntime.md5Sum "Server1923" (Fin.ofNat i)).val) =
      [0x0e, 0x14, 0x32, 0xde] ∧
    (List.range 4).map (fun i => (goRuntime.md5Sum "Server1805_VN_0" (Fin.ofNat i)).val) =
      [0xed, 0x14, 0x32, 0xfe] ∧
    packDigest (goRuntime.md5Sum "Server1923") = 1323774 ∧
    packDigest (goRuntime.md5Sum "Server1805_VN_0") = 1323774 := by
  decide

/-- C18: with `virtualNodes = 1`, in a well-formed state (every reachable state is one),
if the position `p` of the new server is not the largest ring position and the smallest
ring position `nh` greater than `p` is owned by a server `X` other than the new one, then
`AddServer(new)` returns and the key sequence recorded for the new server is exactly the
elements at the odd indices 1, 3, 5, ... of the key sequence of `X` before the call, in
order, whatever the hashes of those keys are. -/
theorem C18_new_server_gets_odd_elements (rt : Runtime) (ch : ConsistentHashing)
    (newServer X : String) (nh : Int)
    (hvn : ch.virtualNodes = 1) (hwf : wellFormed ch)
    (hgt : hash rt (virtualNodeName newServer 0) < nh)
    (hown : mapGet? ch.hashRing nh = some X)
    (hmin : ∀ q ∈ ch.hashRing.map Prod.fst, hash rt (virtualNodeName newServer 0) < q → nh ≤ q)
    (hne : X ≠ newServer) :
    ∃ ch1, AddServer rt ch newServer = some ch1 ∧
      keysOf ch1 newServer = oddElems (keysOf ch X) := by
  have hp := hash_nonneg rt (virtualNodeName newServer 0)
  have hR : insertVirtualNodes rt ch.hashRing newServer 1 =
      mapSet ch.hashRing (hash rt (virtualNodeName newServer 0)) newServer := by
    rw [insertVirtualNodes_succ]
    rfl
  have hnhmem : nh ∈ ch.hashRing.map Prod.fst := (mem_keys_iff _ _).2 ⟨X, hown⟩
  -- the successor search finds `nh`
  have hnext : nextServerHashOf
      (sortedKeys (mapSet ch.hashRing (hash rt (virtualNodeName newServer 0)) newServer))
      (hash rt (virtualNodeName newServer 0)) = some nh := by
    have hmemR : nh ∈ sortedKeys
        (mapSet ch.hashRing (hash rt (virtualNodeName newServer 0)) newServer) :=
      (mem_sortedKeys _ _).2 ((mem_keys_mapSet _ _ _ _).2 (Or.inr hnhmem))
    obtain ⟨a, h1, h2, h3⟩ := nextServerHashOf_spec _ (sortedKeys_sorted _)
      (List.ne_nil_of_mem hmemR) _ hp
    rcases h3 with ⟨ha, hb⟩ | ⟨ha, _⟩
    · have h4 : a ≤ nh := hb nh hmemR hgt
      have h5 : a ∈ ch.hashRing.map Prod.fst := by
        rcases (mem_keys_mapSet _ _ _ _).1 ((mem_sortedKeys _ _).1 h2) with h | h
        · omega
        · exact h
      have h6 : nh ≤ a := hmin a h5 ha
      have : a = nh := by omega
      rw [this] at h1
      exact h1
    · have := ha nh hmemR
      omega
  have hringAt : ringAt
      (mapSet ch.hashRing (hash rt (virtualNodeName newServer 0)) newServer) nh = X := by
    have hpn : ¬ hash rt (virtualNodeName newServer 0) = nh := by omega
    simp [ringAt, mapGet?_mapSet, hpn, hown]
  have hXslice : keysSlice
      { ch with
        serverToKeys := mapSet ch.serverToKeys newServer Slice.empty
        hashRing := mapSet ch.hashRing (hash rt (virtualNodeName newServer 0)) newServer }
      X = keysSlice ch X := by
    have hnx : ¬ newServer = X := fun e => hne e.symm
    simp [keysSlice, mapGet?_mapSet, hnx]
  have hNslice : keysSlice
      { ch with
        serverToKeys := mapSet ch.serverToKeys newServer Slice.empty
        hashRing := mapSet ch.hashRing (hash rt (virtualNodeName newServer 0)) newServer }
      newServer = Slice.empty := by
    simp [keysSlice, mapGet?_mapSet]
  -- the inner loop
  have hloop : ∃ r, reassignLoop rt newServer (hash rt (virtualNodeName newServer 0)) nh
      (keysSlice ch X).len 0
      { ch with
        serverToKeys := mapSet ch.serverToKeys newServer Slice.empty
        hashRing := mapSet ch.hashRing (hash rt (virtualNodeName newServer 0)) newServer }
      (keysSlice ch X) = some r ∧
      elems r.1.heap r.2 = oddElems (keysOf ch X) := by
    rcases wellFormed_keysSlice ch hwf X with h0 | ⟨h1, h2⟩
    · refine ⟨_, by rw [h0]; rfl, ?_⟩
      simp [keysOf, elems, h0, oddElems]
    · obtain ⟨r, hr, hre⟩ := reassignLoop_odd rt newServer
        (hash rt (virtualNodeName newServer 0)) nh ⟨by omega, hgt⟩ ch.heap.length
        (keysSlice ch X).ptr h1 (keysSlice ch X).len 0
        { ch with
          serverToKeys := mapSet ch.serverToKeys newServer Slice.empty
          hashRing := mapSet ch.hashRing (hash rt (virtualNodeName newServer 0)) newServer }
        (keysSlice ch X) rfl (Nat.le_refl _) h2
        (by rw [hNslice]; intro h; exact absurd h (by simp [Slice.empty]))
        (by omega)
      refine ⟨r, hr, ?_⟩
      rw [hre]
      simp [keysOf]
  obtain ⟨r, hr, hre⟩ := hloop
  have htoNat : ch.virtualNodes.toNat = 1 := by rw [hvn]; rfl
  refine ⟨{ r.1 with serverToKeys := mapSet r.1.serverToKeys newServer r.2 }, ?_, ?_⟩
  · unfold AddServer reassignKeysAfterServerAddition
    simp only [htoNat, hR]
    have hstep : reassignVirtualNode rt newServer
        { ch with
          serverToKeys := mapSet ch.serverToKeys newServer Slice.empty
          hashRing := mapSet ch.hashRing (hash rt (virtualNodeName newServer 0)) newServer }
        0 = some { r.1 with serverToKeys := mapSet r.1.serverToKeys newServer r.2 } := by
      unfold reassignVirtualNode
      simp only [hnext, hringAt]
      rw [if_pos hne, hXslice, hr]
    show List.foldlM _ _ [0] = _
    simp [List.foldlM_cons, hstep]
  · simp [keysOf, keysSlice, mapGet?_mapSet, hre]

/-- C18 at `oneNodeState`, which is reachable: `Server3_VN_0` hashes to 449021, below
the only other position 3525447 of `Server1`, which records `Key1` to `Key5`. -/
theorem C18_new_server_gets_odd_elements_witness :
    oneNodeState.virtualNodes = 1 ∧ wellFormed oneNodeState ∧
    hash goRuntime (virtualNodeName "Server3" 0) < 3525447 ∧
    mapGet? oneNodeState.hashRing 3525447 = some "Server1" ∧
    (∀ q ∈ oneNodeState.hashRing.map Prod.fst,
      hash goRuntime (virtualNodeName "Server3" 0) < q → 3525447 ≤ q) ∧
    "Server1" ≠ "Server3" ∧
    ∃ ch1, AddServer goRuntime oneNodeState "Server3" = some ch1 ∧
      keysOf ch1 "Server3" = oddElems (keysOf oneNodeState "Server1") :=
  ⟨rfl, reachable_wellFormed goRuntime oneNodeState oneNodeState_reachable, by decide,
    by decide, by decide, by decide,
    C18_new_server_gets_odd_elements goRuntime oneNodeState "Server3" "Server1" 3525447 rfl
      (reachable_wellFormed goRuntime oneNodeState oneNodeState_reachable) (by decide)
      (by decide) (by decide) (by decide)⟩

/-- C19: for every state, every server name and every value of `virtualNodes` (values
`<= 0` included), `AddServer` returns: none of its reads panics. When `keys[0]` is read
the ring holds the virtual node just inserted, and the inner loop, which reads
`nextServerKeys[i]` and slices at `i` only under its guard `i < len(nextServerKeys)`
on the shrinking slice, returns from every state. -/
theorem C19_addServer_never_panics (rt : Runtime) (ch : ConsistentHashing) (s : String) :
    (∃ ch1, AddServer rt ch s = some ch1) ∧
    (∀ i, i < ch.virtualNodes.toNat →
      hash rt (virtualNodeName s i) ∈
        (insertVirtualNodes rt ch.hashRing s ch.virtualNodes.toNat).map Prod.fst) ∧
    (∀ (vh nh : Int) (fuel i : Nat) (c : ConsistentHashing) (nsk : Slice),
      ∃ r, reassignLoop rt s vh nh fuel i c nsk = some r) := by
  refine ⟨?_, ?_, ?_⟩
  · obtain ⟨ch1, h1, _⟩ := addServer_ring rt ch s
    exact ⟨ch1, h1⟩
  · intro i hi
    exact insertVirtualNodes_mem rt ch.hashRing s ch.virtualNodes.toNat i hi
  · intro vh nh fuel i c nsk
    obtain ⟨r, hr, _⟩ := reassignLoop_frame rt s vh nh fuel i c nsk
    exact ⟨r, hr⟩

end ConsistenceHashing
